import Mathlib

/-!
# Verification of the clipstui file-operation planning engine

Shallow embedding of `src/clipstui/fileops_plan.py` and
`src/clipstui/fileops_apply.py`.

Modelling conventions:
* A resolved absolute POSIX path is a `List String` of components
  (`[] = "/"`, `["r", "a.txt"] = "/r/a.txt"`).  Python `pathlib.Path`
  values that may still be relative are carried as a `(Bool × List String)`
  pair (absolute flag, components) during line parsing only.
* Python `str.casefold` / `str.upper` / `str.strip` are modelled on ASCII
  text (character-wise case mapping, the usual ASCII whitespace set); all
  paths handled by the engine's tests and claims are ASCII.
* `Path.resolve(strict=False)` is modelled as pure `.`/`..` normalisation;
  symlinks are outside the model.
* The filesystem is an explicit value: a list of directory paths plus a
  list of (file path, content) pairs.  `Path.exists()` / `Path.is_dir()`
  are membership tests; `os.replace` / `Path.rename` / `Path.rmdir` /
  `Path.unlink` are the corresponding pure transformers.
* Python's unbounded `while` loops (`_order_moves`, `_unique_temp_path`)
  are embedded with explicit fuel; theorems below show the chosen fuel
  always suffices, which is exactly the termination claim of the source.
-/

/-! ## Python string primitives (ASCII model) -/

/-- Python `str.isspace` relevant characters (ASCII model of the
whitespace stripped by `str.strip`). -/
def pyIsSpace (c : Char) : Bool :=
  c.toNat = 32 ∨ c.toNat = 9 ∨ c.toNat = 10 ∨ c.toNat = 13 ∨
    c.toNat = 11 ∨ c.toNat = 12

/-- ASCII model of Python `str.upper` on one character. -/
def pyUpperChar (c : Char) : Char :=
  if 97 ≤ c.toNat ∧ c.toNat ≤ 122 then Char.ofNat (c.toNat - 32) else c

/-- ASCII model of Python `str.casefold` on one character. -/
def pyLowerChar (c : Char) : Char :=
  if 65 ≤ c.toNat ∧ c.toNat ≤ 90 then Char.ofNat (c.toNat + 32) else c

/-- `l.lstrip(p)` on character lists. -/
def pyLStrip (p : Char → Bool) (l : List Char) : List Char :=
  l.dropWhile p

/-- `l.rstrip(p)` on character lists. -/
def pyRStrip (p : Char → Bool) (l : List Char) : List Char :=
  (l.reverse.dropWhile p).reverse

/-- `l.strip()`-style stripping on character lists. -/
def pyStripChars (p : Char → Bool) (l : List Char) : List Char :=
  pyLStrip p (pyRStrip p l)

/-- Python `s.strip()` (whitespace both ends). -/
def pyStrip (s : String) : String :=
  ⟨pyStripChars pyIsSpace s.data⟩

/-- Python `s.lstrip()` (whitespace on the left). -/
def pyLstripWs (s : String) : String :=
  ⟨pyLStrip pyIsSpace s.data⟩

/-- Python `s.rstrip("\n")`. -/
def pyRstripNl (s : String) : String :=
  ⟨pyRStrip (fun c => c = '\n') s.data⟩

/-- Python `s.upper()` (ASCII model). -/
def pyUpper (s : String) : String :=
  ⟨s.data.map pyUpperChar⟩

/-- Python `s.startswith(t)`. -/
def pyStartsWith (s t : String) : Bool :=
  decide (s.data.take t.data.length = t.data)

/-- Python `s.endswith` for a single character alternative set. -/
def pyEndsWithAny (s : String) (cs : List Char) : Bool :=
  match s.data.getLast? with
  | none => false
  | some c => c ∈ cs

/-- Decimal digits of a natural number, most significant first, with
structural fuel (`fuel > n` always suffices since `n / 10 < n`). -/
def natCharsAux : Nat → Nat → List Char
  | 0, _ => []
  | fuel + 1, n =>
    if n < 10 then [Char.ofNat (48 + n)]
    else natCharsAux fuel (n / 10) ++ [Char.ofNat (48 + n % 10)]

/-- Decimal digits of a natural number, most significant first
(model of Python `str(int)` for the temp-name counter). -/
def natChars (n : Nat) : List Char := natCharsAux (n + 1) n

/-- Model of Python `str(n)` for naturals. -/
def natStr (n : Nat) : String := ⟨natChars n⟩

/-! ## Paths -/

/-- A resolved absolute path: its components below the filesystem root. -/
abbrev PPath := List String

/-- `str(path)` for an absolute path (POSIX rendering), as characters. -/
def pathChars (p : PPath) : List Char :=
  '/' :: joinComps p
where
  joinComps : List String → List Char
    | [] => []
    | [c] => c.data
    | c :: rest => c.data ++ '/' :: joinComps rest

/-- `_path_key(path) = str(path).casefold()` from both source modules. -/
def pathKey (p : PPath) : List Char :=
  (pathChars p).map pyLowerChar

/-- `path.parent` for an absolute path. -/
def pathParent (p : PPath) : PPath := p.dropLast

/-- `path.name` for an absolute path (`""` for the root). -/
def pathName (p : PPath) : String := p.getLastD ""

/-- Split a character list on a separator (model of Python `str.split`). -/
def splitOnChar (sep : Char) : List Char → List (List Char)
  | [] => [[]]
  | c :: rest =>
    if c = sep then [] :: splitOnChar sep rest
    else
      match splitOnChar sep rest with
      | [] => [[c]]
      | h :: t => (c :: h) :: t

/-- Split a character list on `/` (model of Python `str.split("/")`). -/
def splitOnSlash (l : List Char) : List (List Char) := splitOnChar '/' l

/-- Component list of a possibly-relative `pathlib.Path`: split on `/`,
dropping empty components and single dots (pathlib normalises these away
at construction). -/
def pyPathComps (text : String) : List String :=
  ((splitOnSlash text.data).map fun l => (⟨l⟩ : String)).filter
    fun c => c ≠ "" ∧ c ≠ "."

/-- Whether `pathlib.Path(text)` is absolute. -/
def pyPathIsAbs (text : String) : Bool :=
  pyStartsWith text "/"

/-- `Path.resolve(strict=False)` on an absolute component list:
process `..` against the accumulated prefix (symlink-free model). -/
def resolveAbs (p : List String) : PPath :=
  p.foldl (fun acc c => if c = ".." then acc.dropLast else acc ++ [c]) []

example : resolveAbs ["r", "x", "..", "a.txt"] = ["r", "a.txt"] := by decide
example : pathChars ["r", "a.txt"] = "/r/a.txt".data := by decide
example : pathKey ["r", "A.txt"] = pathKey ["r", "a.txt"] := by decide
example : natStr 12 = "12" := by decide

/-! ## Data model (`fileops_plan.py` lines 8-78) -/

/-- `DELETE_MARKER = "[DELETE]"`. -/
def DELETE_MARKER : String := "[DELETE]"

inductive OperationType where
  | create_file
  | create_dir
  | move
  | delete
deriving DecidableEq, Repr

structure PathEntry where
  path : PPath
  is_dir : Bool
deriving DecidableEq, Repr

structure EditedEntry where
  raw : String
  path : PPath
  rel : List String
  norm : String
  is_dir_hint : Bool
deriving DecidableEq, Repr

structure DeleteMarker where
  raw : String
  path : PPath
  rel : List String
  norm : String
deriving DecidableEq, Repr

structure Operation where
  op_type : OperationType
  source : Option PPath := none
  target : Option PPath := none
  is_dir : Bool := false
deriving DecidableEq, Repr

structure ValidationError where
  message : String
  path : Option PPath := none
deriving DecidableEq, Repr

structure Confirmation where
  operation : Operation
  reason : String
deriving DecidableEq, Repr

structure OperationPlan where
  root : PPath
  operations : List Operation
  original_entries : List PathEntry
  edited_entries : List EditedEntry
  delete_markers : List DeleteMarker
  parse_errors : List ValidationError
deriving DecidableEq, Repr

/-! ## Line parser (`fileops_plan.py` lines 277-324) -/

/-- `_normalize_rel(rel) = rel.as_posix().rstrip("/")`; `pathlib`
renders the empty relative path as `"."`. -/
def normalizeRel (rel : List String) : String :=
  match rel with
  | [] => "."
  | _ => ⟨pyRStrip (fun c => c = '/') (pathChars.joinComps rel)⟩

/-- `_parse_edited_entry(root, raw, errors)`: returns the errors appended
by the call together with the parsed entry, if any. -/
def parseEditedEntry (root : PPath) (raw : String) :
    List ValidationError × Option EditedEntry :=
  let text0 := pyStrip raw
  let is_dir_hint := pyEndsWithAny text0 ['/', '\\']
  let text : String := ⟨pyRStrip (fun c => c = '/' ∨ c = '\\') text0.data⟩
  if text = "" then
    ([⟨"Edited line is empty after trimming.", none⟩], none)
  else
    let joined : List String :=
      if pyPathIsAbs text then pyPathComps text else root ++ pyPathComps text
    let path := resolveAbs joined
    if path.take root.length = root then
      let rel := path.drop root.length
      if rel = [] then
        ([⟨"Path resolves to the root directory.", some path⟩], none)
      else
        ([], some ⟨raw, path, rel, normalizeRel rel, is_dir_hint⟩)
    else
      ([⟨"Path escapes the current root.", some path⟩], none)

/-- `_is_delete_marker(value) = value.upper().startswith(DELETE_MARKER)`. -/
def isDeleteMarker (value : String) : Bool :=
  pyStartsWith (pyUpper value) DELETE_MARKER

/-- `_parse_delete_marker(root, raw, errors)`. -/
def parseDeleteMarker (root : PPath) (raw : String) :
    List ValidationError × Option DeleteMarker :=
  let remainder : String := pyStrip ⟨raw.data.drop DELETE_MARKER.data.length⟩
  if remainder = "" then
    ([⟨"Delete marker missing a path.", none⟩], none)
  else
    match parseEditedEntry root remainder with
    | (errs, none) => (errs, none)
    | (errs, some entry) => (errs, some ⟨raw, entry.path, entry.rel, entry.norm⟩)

/-- `_rel_to_root(root, path)` (entry paths are absolute in the model). -/
def relToRoot (root : PPath) (path : PPath) : List String :=
  let resolved := resolveAbs path
  if resolved.take root.length = root then resolved.drop root.length
  else [pathName resolved]

example :
    parseEditedEntry ["r"] " sub/b.txt " =
      ([], some ⟨" sub/b.txt ", ["r", "sub", "b.txt"], ["sub", "b.txt"],
        "sub/b.txt", false⟩) := by decide
example : (parseEditedEntry ["r"] "../escape.txt").2 = none := by decide
example : isDeleteMarker "[delete] b.txt" = true := by decide
example :
    (parseDeleteMarker ["r"] "[DELETE] b.txt").2 =
      some ⟨"[DELETE] b.txt", ["r", "b.txt"], ["b.txt"], "b.txt"⟩ := by decide

/-! ## Sequence matcher

Modelled from the spec: the planner calls Python's stdlib
`difflib.SequenceMatcher` (external library code, not part of this
repository), "a longest-common-subsequence-based diff" producing
`equal`/`delete`/`insert`/`replace` opcode runs.  The definitions below
follow CPython's `difflib` algorithm with `isjunk=None, autojunk=False`
(so the junk hooks are constant-false and the `b2j` table is complete).
-/

/-- `b2j[x]`: the ascending list of positions of `x` in `b`. -/
def b2j (b : List String) (x : String) : List Nat :=
  (List.range b.length).filter fun j => b.get? j = some x

structure FlmBest where
  besti : Nat
  bestj : Nat
  bestsize : Nat
deriving DecidableEq, Repr

/-- Inner loop of `find_longest_match` for one row `i`: walk the
positions `js` of `a[i]` in `b`, skipping `j < blo`, stopping at
`j ≥ bhi`, building the new length table and updating the best block. -/
def flmInner (blo bhi i : Nat) (j2len : Nat → Nat) :
    List Nat → (Nat → Nat) → FlmBest → (Nat → Nat) × FlmBest
  | [], newj2len, best => (newj2len, best)
  | j :: rest, newj2len, best =>
    if j < blo then flmInner blo bhi i j2len rest newj2len best
    else if bhi ≤ j then (newj2len, best)
    else
      let k := (if j = 0 then 0 else j2len (j - 1)) + 1
      let newj2len' : Nat → Nat := fun j' => if j' = j then k else newj2len j'
      let best' : FlmBest :=
        if best.bestsize < k then ⟨i + 1 - k, j + 1 - k, k⟩ else best
      flmInner blo bhi i j2len rest newj2len' best'

/-- Outer loop of `find_longest_match`: rows `i ∈ [alo, ahi)`. -/
def flmOuter (a b : List String) (blo bhi : Nat) :
    List Nat → (Nat → Nat) → FlmBest → FlmBest
  | [], _, best => best
  | i :: irest, j2len, best =>
    let (newj2len, best') :=
      flmInner blo bhi i j2len (b2j b (a.getD i "")) (fun _ => 0) best
    flmOuter a b blo bhi irest newj2len best'

/-- First extension loop of `find_longest_match` (non-junk, so with
`isjunk=None` it extends whenever the flanking elements are equal). -/
def flmExtLow (a b : List String) (alo blo : Nat) :
    Nat → FlmBest → FlmBest
  | 0, best => best
  | fuel + 1, best =>
    if alo < best.besti ∧ blo < best.bestj ∧
        (a.get? (best.besti - 1)).isSome ∧
        a.get? (best.besti - 1) = b.get? (best.bestj - 1) then
      flmExtLow a b alo blo fuel
        ⟨best.besti - 1, best.bestj - 1, best.bestsize + 1⟩
    else best

/-- Second extension loop of `find_longest_match`. -/
def flmExtHigh (a b : List String) (ahi bhi : Nat) (besti bestj : Nat) :
    Nat → Nat → Nat
  | 0, bestsize => bestsize
  | fuel + 1, bestsize =>
    if besti + bestsize < ahi ∧ bestj + bestsize < bhi ∧
        (a.get? (besti + bestsize)).isSome ∧
        a.get? (besti + bestsize) = b.get? (bestj + bestsize) then
      flmExtHigh a b ahi bhi besti bestj fuel (bestsize + 1)
    else bestsize

/-- `SequenceMatcher.find_longest_match(alo, ahi, blo, bhi)`
(the two junk-extension loops are omitted: `isbjunk` is constant false
with `isjunk=None`, so their conditions never hold). -/
def findLongestMatch (a b : List String) (alo ahi blo bhi : Nat) :
    Nat × Nat × Nat :=
  let best := flmOuter a b blo bhi (List.range' alo (ahi - alo))
    (fun _ => 0) ⟨alo, blo, 0⟩
  let low := flmExtLow a b alo blo best.besti best
  let size := flmExtHigh a b ahi bhi low.besti low.bestj ahi low.bestsize
  (low.besti, low.bestj, size)

/-- The recursive block collection of `get_matching_blocks` (CPython uses
an explicit queue and then sorts; splitting at the longest match and
concatenating in order yields that sorted list directly).  Fueled; fuel
`(ahi - alo) + (bhi - blo) + 1` suffices because each recursion strictly
shrinks the window. -/
def matchingBlocksAux (a b : List String) :
    Nat → Nat → Nat → Nat → Nat → List (Nat × Nat × Nat)
  | 0, _, _, _, _ => []
  | fuel + 1, alo, ahi, blo, bhi =>
    let r := findLongestMatch a b alo ahi blo bhi
    if r.2.2 = 0 then []
    else
      matchingBlocksAux a b fuel alo r.1 blo r.2.1 ++ [r] ++
        matchingBlocksAux a b fuel (r.1 + r.2.2) ahi (r.2.1 + r.2.2) bhi

/-- The adjacent-block merge loop of `get_matching_blocks`. -/
def mergeBlocks : Nat → Nat → Nat → List (Nat × Nat × Nat) →
    List (Nat × Nat × Nat)
  | i1, j1, k1, [] => if k1 ≠ 0 then [(i1, j1, k1)] else []
  | i1, j1, k1, (i2, j2, k2) :: rest =>
    if i1 + k1 = i2 ∧ j1 + k1 = j2 then mergeBlocks i1 j1 (k1 + k2) rest
    else
      (if k1 ≠ 0 then [(i1, j1, k1)] else []) ++ mergeBlocks i2 j2 k2 rest

/-- `SequenceMatcher.get_matching_blocks()`. -/
def getMatchingBlocks (a b : List String) : List (Nat × Nat × Nat) :=
  mergeBlocks 0 0 0
      (matchingBlocksAux a b (a.length + b.length + 1) 0 a.length 0 b.length)
    ++ [(a.length, b.length, 0)]

inductive DiffTag where
  | replace
  | delete
  | insert
  | equal
deriving DecidableEq, Repr

/-- The opcode walk of `SequenceMatcher.get_opcodes()`. -/
def opcodesWalk : Nat → Nat → List (Nat × Nat × Nat) →
    List (DiffTag × Nat × Nat × Nat × Nat)
  | _, _, [] => []
  | i, j, (ai, bj, size) :: rest =>
    let gap : List (DiffTag × Nat × Nat × Nat × Nat) :=
      if i < ai ∧ j < bj then [(.replace, i, ai, j, bj)]
      else if i < ai then [(.delete, i, ai, j, bj)]
      else if j < bj then [(.insert, i, ai, j, bj)]
      else []
    let eq : List (DiffTag × Nat × Nat × Nat × Nat) :=
      if size ≠ 0 then [(.equal, ai, ai + size, bj, bj + size)] else []
    gap ++ eq ++ opcodesWalk (ai + size) (bj + size) rest

/-- `SequenceMatcher(a=..., b=..., autojunk=False).get_opcodes()`. -/
def getOpcodes (a b : List String) : List (DiffTag × Nat × Nat × Nat × Nat) :=
  opcodesWalk 0 0 (getMatchingBlocks a b)

example : getOpcodes ["A.txt"] ["a.txt"] = [(.replace, 0, 1, 0, 1)] := by
  decide
example :
    getOpcodes ["dir1", "a.txt", "b.txt"]
        ["dir1", "a_renamed.txt", "sub/b.txt", "new.txt"] =
      [(.equal, 0, 1, 0, 1), (.replace, 1, 3, 1, 4)] := by decide
example :
    getOpcodes ["a.txt", "b.txt"] ["a.txt"] =
      [(.equal, 0, 1, 0, 1), (.delete, 1, 2, 1, 1)] := by decide
example :
    getOpcodes ["x", "y"] ["x", "y"] = [(.equal, 0, 2, 0, 2)] := by decide

/-! ## Diff planner (`fileops_plan.py` lines 81-196) -/

inductive EClass where
  | keep
  | move
  | delete
deriving DecidableEq, Repr

structure ClassState where
  state : List EClass
  moveTarget : List (Option Nat)
  createIndices : List Nat
deriving DecidableEq, Repr

/-- `for idx in range(i1, i2): state[idx] = v`. -/
def setRange (st : List EClass) (i1 i2 : Nat) (v : EClass) : List EClass :=
  (List.range' i1 (i2 - i1)).foldl (fun acc idx => acc.set idx v) st

/-- One opcode of the classification loop (`compute_plan` lines 114-135). -/
def applyOpcode (cs : ClassState) (op : DiffTag × Nat × Nat × Nat × Nat) :
    ClassState :=
  match op with
  | (.equal, _, _, _, _) => cs
  | (.delete, i1, i2, _, _) => { cs with state := setRange cs.state i1 i2 .delete }
  | (.insert, _, _, j1, j2) =>
    { cs with createIndices := cs.createIndices ++ List.range' j1 (j2 - j1) }
  | (.replace, i1, i2, j1, j2) =>
    let origBlock := List.range' i1 (i2 - i1)
    let editBlock := List.range' j1 (j2 - j1)
    let pairCount := min origBlock.length editBlock.length
    let cs1 := (List.range pairCount).foldl
      (fun acc off =>
        { acc with
          state := acc.state.set (i1 + off) .move
          moveTarget := acc.moveTarget.set (i1 + off) (some (j1 + off)) })
      cs
    let cs2 := { cs1 with
      state := (origBlock.drop pairCount).foldl (fun st idx => st.set idx .delete)
        cs1.state }
    { cs2 with createIndices := cs2.createIndices ++ editBlock.drop pairCount }

/-- `norm_to_index = {norm: idx for idx, norm in enumerate(original_norms)}`
(a later duplicate key overwrites an earlier one, hence `getLast?`). -/
def normToIndex (norms : List String) (x : String) : Option Nat :=
  ((norms.enum.filter fun p => p.2 = x).map Prod.fst).getLast?

/-- One delete marker of the marker loop (`compute_plan` lines 139-156).
The state list is indexed exactly like Python's `state` array; an
out-of-range `idx` cannot occur because `norm_to_index` only yields
indices below `len(original_norms) = len(state)`. -/
def markerStep (normsIndex : String → Option Nat) (editedNormSet : List String)
    (acc : List EClass × List ValidationError) (marker : DeleteMarker) :
    List EClass × List ValidationError :=
  let (state, errs) := acc
  match normsIndex marker.norm with
  | none =>
    (state,
      errs ++ [⟨"Delete marker does not match existing entry.", some marker.path⟩])
  | some idx =>
    if marker.norm ∈ editedNormSet then
      (state,
        errs ++ [⟨"Delete marker conflicts with an edited entry.", some marker.path⟩])
    else if state[idx]? = some .move then
      (state,
        errs ++ [⟨"Delete marker conflicts with a rename/move.", some marker.path⟩])
    else (state.set idx .delete, errs)

/-- Operations emitted for one original entry (`compute_plan` lines
159-182).  The `none` fallbacks mirror unreachable states: Python would
raise on an out-of-range index, and `move_target` is always set when the
classification is `move`. -/
def emitForEntry (edited : List EditedEntry) (entry : PathEntry) (cls : EClass)
    (mt : Option Nat) : List Operation :=
  match cls with
  | .move =>
    match mt with
    | none => []
    | some tIdx =>
      match edited[tIdx]? with
      | none => []
      | some te =>
        if pathKey entry.path = pathKey te.path then []
        else [⟨.move, some entry.path, some te.path, entry.is_dir⟩]
  | .delete => [⟨.delete, some entry.path, none, entry.is_dir⟩]
  | .keep => []

/-- Creation operations (`compute_plan` lines 184-187). -/
def emitCreates (edited : List EditedEntry) (creates : List Nat) :
    List Operation :=
  creates.flatMap fun idx =>
    match edited[idx]? with
    | none => []
    | some e =>
      [⟨if e.is_dir_hint then .create_dir else .create_file, none, some e.path,
        e.is_dir_hint⟩]

/-- The operation-emission phase of `compute_plan`. -/
def emitOps (entries : List PathEntry) (state : List EClass)
    (mts : List (Option Nat)) (edited : List EditedEntry)
    (creates : List Nat) : List Operation :=
  ((entries.zip (state.zip mts)).flatMap fun p =>
    emitForEntry edited p.1 p.2.1 p.2.2) ++ emitCreates edited creates

/-- The line-parsing loop of `compute_plan` (lines 94-105). -/
def parseLines (root : PPath) (lines : List String) :
    List ValidationError × List EditedEntry × List DeleteMarker :=
  lines.foldl
    (fun acc raw =>
      let (errs, ents, marks) := acc
      let stripped := pyStrip raw
      if stripped = "" then acc
      else if isDeleteMarker stripped then
        match parseDeleteMarker root stripped with
        | (e2, some m) => (errs ++ e2, ents, marks ++ [m])
        | (e2, none) => (errs ++ e2, ents, marks)
      else
        match parseEditedEntry root raw with
        | (e2, some en) => (errs ++ e2, ents ++ [en], marks)
        | (e2, none) => (errs ++ e2, ents, marks))
    ([], [], [])

/-- `compute_plan(root, original_entries, edited_lines)`. -/
def compute_plan (root : PPath) (original_entries : List PathEntry)
    (edited_lines : List String) : OperationPlan :=
  let root_resolved := resolveAbs root
  let original_norms :=
    original_entries.map fun e => normalizeRel (relToRoot root_resolved e.path)
  let parsed := parseLines root_resolved edited_lines
  let parse_errors := parsed.1
  let edited_entries := parsed.2.1
  let delete_markers := parsed.2.2
  let edited_norms := edited_entries.map (·.norm)
  let opcodes := getOpcodes original_norms edited_norms
  let cs0 : ClassState :=
    ⟨List.replicate original_entries.length .keep,
      List.replicate original_entries.length none, []⟩
  let cs := opcodes.foldl applyOpcode cs0
  let marked := delete_markers.foldl
    (markerStep (normToIndex original_norms) edited_norms)
    (cs.state, parse_errors)
  let operations :=
    emitOps original_entries marked.1 cs.moveTarget edited_entries
      cs.createIndices
  ⟨root_resolved, operations, original_entries, edited_entries,
    delete_markers, marked.2⟩

example :
    (compute_plan ["r"]
        [⟨["r", "dir1"], true⟩, ⟨["r", "a.txt"], false⟩, ⟨["r", "b.txt"], false⟩]
        ["dir1/", "a_renamed.txt", "sub/b.txt", "new.txt"]).operations =
      [⟨.move, some ["r", "a.txt"], some ["r", "a_renamed.txt"], false⟩,
        ⟨.move, some ["r", "b.txt"], some ["r", "sub", "b.txt"], false⟩,
        ⟨.create_file, none, some ["r", "new.txt"], false⟩] := by decide

example :
    (compute_plan ["r"] [⟨["r", "a.txt"], false⟩, ⟨["r", "b.txt"], false⟩]
        ["a.txt"]).operations =
      [⟨.delete, some ["r", "b.txt"], none, false⟩] := by decide

example :
    (compute_plan ["r"] [⟨["r", "a.txt"], false⟩, ⟨["r", "b.txt"], false⟩]
        ["a.txt", "[DELETE] b.txt"]).operations =
      [⟨.delete, some ["r", "b.txt"], none, false⟩] := by decide

example :
    (compute_plan ["r"] [⟨["r", "a.txt"], false⟩, ⟨["r", "b.txt"], false⟩]
        ["a.txt", "", "b.txt", "   "]).operations = [] := by decide

/-! ## Filesystem model -/

/-- An explicit filesystem value: directory paths and (file, content)
pairs, all resolved absolute paths. -/
structure FS where
  dirs : List PPath
  files : List (PPath × String)
deriving DecidableEq, Repr

/-- All paths present on the filesystem. -/
def allPaths (fs : FS) : List PPath := fs.dirs ++ fs.files.map Prod.fst

/-- `path.exists()`. -/
def existsFS (fs : FS) (p : PPath) : Bool := p ∈ allPaths fs

/-- `path.is_dir()`. -/
def isDirFS (fs : FS) (p : PPath) : Bool := p ∈ fs.dirs

/-! ## Plan validator (`fileops_plan.py` lines 199-258 and 337-402) -/

/-- `_INVALID_CHARS = set('<>:"/\\|?*')`. -/
def INVALID_CHARS : List Char := ['<', '>', ':', '"', '/', '\\', '|', '?', '*']

/-- `_RESERVED_NAMES`. -/
def RESERVED_NAMES : List String :=
  ["CON", "PRN", "AUX", "NUL",
    "COM1", "COM2", "COM3", "COM4", "COM5", "COM6", "COM7", "COM8", "COM9",
    "LPT1", "LPT2", "LPT3", "LPT4", "LPT5", "LPT6", "LPT7", "LPT8", "LPT9"]

/-- `_invalid_component(part)`. -/
def invalidComponent (part : String) : Option String :=
  if part = "" ∨ part = "." ∨ part = ".." then some "Path component is invalid."
  else if pyEndsWithAny part [' ', '.'] then
    some "Path component ends with a space or dot."
  else if part.data.any (fun c => c ∈ INVALID_CHARS ∨ c.toNat < 32) then
    some "Path component contains invalid characters."
  else
    let trimmed : String := ⟨pyRStrip (fun c => c = ' ' ∨ c = '.') part.data⟩
    if trimmed = "" then some "Path component is invalid."
    else
      let base := pyUpper ⟨((splitOnChar '.' trimmed.data).headD [])⟩
      if base ∈ RESERVED_NAMES then some "Path component uses a reserved name."
      else none

/-- `_validate_relative_path(root, path)`. -/
def validateRelativePath (root : PPath) (path : PPath) : Option String :=
  let r := resolveAbs path
  if r.take root.length = root then
    let rel := r.drop root.length
    if rel = [] then some "Path resolves to the root directory."
    else rel.findSome? invalidComponent
  else some "Path escapes the current root."

/-- `_is_within_root(root, path)`. -/
def isWithinRoot (root : PPath) (path : PPath) : Bool :=
  (resolveAbs path).take root.length = root

/-- `_is_relative_to(path, base)`. -/
def isRelativeTo (path : PPath) (base : PPath) : Bool :=
  (resolveAbs path).take (resolveAbs base).length = resolveAbs base

/-- The ancestor walk of `_planned_dirs` (the `while True` loop); fuel
`|p| + 1` suffices since `parent` strictly shortens a component list. -/
def dirChainAux (root : PPath) : Nat → PPath → List (List Char)
  | 0, _ => []
  | fuel + 1, current =>
    pathKey current ::
      (if current = root ∨ pathParent current = current then []
       else dirChainAux root fuel (pathParent current))

/-- `_planned_dirs(root, original, operations)` as a key list. -/
def plannedDirs (root : PPath) (original : List PathEntry)
    (operations : List Operation) : List (List Char) :=
  pathKey root ::
    ((original.filter (·.is_dir)).map fun e => pathKey (resolveAbs e.path)) ++
    (operations.flatMap fun op =>
      if op.op_type = .create_dir then
        match op.target with
        | some t =>
          let r := resolveAbs t
          dirChainAux root (r.length + 1) r
        | none => []
      else [])

/-- The move-collision block of `validate_plan` (lines 244-248): target
already exists on disk. -/
def moveTargetExistsErrors (fs : FS) (is_dir : Bool) (t : PPath) :
    List ValidationError :=
  if existsFS fs t then
    if is_dir then [⟨"Target directory already exists.", some t⟩]
    else if isDirFS fs t then [⟨"Target is an existing directory.", some t⟩]
    else []
  else []

/-- The errors appended for one operation by the main loop of
`validate_plan` (lines 227-256), in source order. -/
def opErrors (fs : FS) (root : PPath) (planned : List (List Char))
    (op : Operation) : List ValidationError :=
  let e1 := match op.source with
    | some s =>
      if isWithinRoot root s then []
      else [⟨"Source is outside the current root.", some s⟩]
    | none => []
  let e2 := match op.target with
    | some t =>
      if isWithinRoot root t then []
      else [⟨"Target is outside the current root.", some t⟩]
    | none => []
  let isCMD := op.op_type = .move ∨ op.op_type = .create_file ∨
    op.op_type = .create_dir
  if isCMD ∧ op.target = none then e1 ++ e2
  else
    let e3 := if isCMD then
        match op.target with
        | some t =>
          let parent := pathParent t
          if pathKey parent ∉ planned ∧ ¬existsFS fs parent then
            [⟨"Target parent does not exist.", some t⟩]
          else []
        | none => []
      else []
    let e4 := match op.op_type, op.source, op.target with
      | .move, some s, some t =>
        (if op.is_dir ∧ isRelativeTo t s then
          [⟨"Cannot move a directory into itself.", some t⟩]
        else []) ++ moveTargetExistsErrors fs op.is_dir t
      | _, _, _ => []
    let e5 := match op.op_type, op.target with
      | .create_file, some t =>
        if existsFS fs t then [⟨"Target file already exists.", some t⟩] else []
      | _, _ => []
    let e6 := match op.op_type, op.target with
      | .create_dir, some t =>
        if existsFS fs t ∧ ¬isDirFS fs t then
          [⟨"Target exists and is not a directory.", some t⟩]
        else []
      | _, _ => []
    e1 ++ e2 ++ e3 ++ e4 ++ e5 ++ e6

/-- The duplicate-detection folds of `validate_plan` (edited paths, then
operation targets). -/
def dupFold (items : List (List Char × Option (List ValidationError)))
    : List ValidationError :=
  (items.foldl
    (fun (acc : List (List Char) × List ValidationError) item =>
      let (seen, errs) := acc
      let dup := item.1 ∈ seen
      let errs1 := if dup then
          errs ++ (item.2.getD [])
        else errs
      ((if dup then seen else seen ++ [item.1]), errs1))
    ([], [])).2

/-- `validate_plan(plan)` over the filesystem model. -/
def validate_plan (fs : FS) (plan : OperationPlan) : List ValidationError :=
  let root := resolveAbs plan.root
  let editedDupAndName :=
    (plan.edited_entries.foldl
      (fun (acc : List (List Char) × List ValidationError) entry =>
        let (seen, errs) := acc
        let key := pathKey entry.path
        let dup := key ∈ seen
        let errs1 := if dup then
            errs ++ [⟨"Duplicate edited path.", some entry.path⟩]
          else errs
        let errs2 := match validateRelativePath root entry.path with
          | some msg => errs1 ++ [⟨msg, some entry.path⟩]
          | none => errs1
        ((if dup then seen else seen ++ [key]), errs2))
      ([], [])).2
  let targetDups :=
    (plan.operations.foldl
      (fun (acc : List (List Char) × List ValidationError) op =>
        match op.target with
        | none => acc
        | some t =>
          let (seen, errs) := acc
          let key := pathKey t
          if key ∈ seen then
            (seen, errs ++ [⟨"Duplicate target path.", some t⟩])
          else (seen ++ [key], errs))
      ([], [])).2
  let planned := plannedDirs root plan.original_entries plan.operations
  plan.parse_errors ++ editedDupAndName ++ targetDups ++
    plan.operations.flatMap (opErrors fs root planned)

/-- `collect_confirmations(plan)` over the filesystem model. -/
def collect_confirmations (fs : FS) (plan : OperationPlan) :
    List Confirmation :=
  plan.operations.flatMap fun op =>
    match op.op_type with
    | .delete => [⟨op, "Confirm delete"⟩]
    | .move =>
      match op.target, op.source with
      | some t, some _ =>
        if existsFS fs t ∧ ¬op.is_dir ∧ ¬isDirFS fs t then
          [⟨op, "Confirm overwrite"⟩]
        else []
      | _, _ => []
    | _ => []

/-! ## Buffer helpers (`fileops_plan.py` lines 405-422) -/

/-- `is_delete_marker_line(line)`. -/
def is_delete_marker_line (line : String) : Bool :=
  pyStartsWith (pyUpper (pyStrip line)) DELETE_MARKER

/-- `strip_delete_marker(line)`. -/
def strip_delete_marker (line : String) : String :=
  if ¬is_delete_marker_line line then line
  else pyLstripWs ⟨(pyStrip line).data.drop DELETE_MARKER.data.length⟩

/-- `toggle_delete_marker(line)`. -/
def toggle_delete_marker (line : String) : String :=
  let text := pyRstripNl line
  if pyStrip text = "" then text
  else if is_delete_marker_line text then strip_delete_marker text
  else DELETE_MARKER ++ " " ++ pyStrip text

example : toggle_delete_marker "folder/" = "[DELETE] folder/" := by decide
example : toggle_delete_marker "[DELETE] folder/" = "folder/" := by decide

example :
    (validate_plan ⟨[["r"]], []⟩
        (compute_plan ["r"] []
          ["dup.txt", "dup.txt", "../escape.txt", "bad<name>.txt"])).map
        (·.message) =
      ["Path escapes the current root.", "Duplicate edited path.",
        "Path component contains invalid characters.",
        "Duplicate target path."] := by decide

example :
    (validate_plan ⟨[["r"], ["r", "dir1"]], []⟩
        (compute_plan ["r"] [⟨["r", "dir1"], true⟩] ["dir1/subdir"])).map
        (·.message) =
      ["Cannot move a directory into itself."] := by decide

/-! ## Plan executor (`fileops_apply.py`) -/

inductive ApplyStatus where
  | ok
  | error
  | skipped
deriving DecidableEq, Repr

structure ApplyResult where
  operation : Operation
  status : ApplyStatus
  message : Option String := none
deriving DecidableEq, Repr

structure ApplyReport where
  results : List ApplyResult
deriving DecidableEq, Repr

def ApplyReport.ok_count (r : ApplyReport) : Nat :=
  r.results.countP fun x => x.status = .ok

def ApplyReport.error_count (r : ApplyReport) : Nat :=
  r.results.countP fun x => x.status = .error

def ApplyReport.skipped_count (r : ApplyReport) : Nat :=
  r.results.countP fun x => x.status = .skipped

/-- `_MoveStep`; `origin` is the index of the originating operation in
the move list (the model's stand-in for Python object identity `id`,
which distinguishes the distinct `Operation` objects of a plan). -/
structure MoveStep where
  source : PPath
  target : PPath
  origin : Nat
  is_dir : Bool
deriving DecidableEq, Repr

/-- `_MoveItem` (same fields as `_MoveStep`, as in the source). -/
structure MoveItem where
  source : PPath
  target : PPath
  origin : Nat
  is_dir : Bool
deriving DecidableEq, Repr

/-- Replace the prefix `s` of a path by `t` (effect of renaming a
directory on the paths inside it). -/
def replacePre (s t p : PPath) : PPath :=
  if p.take s.length = s then t ++ p.drop s.length else p

/-- Remove a file entry. -/
def removeFile (fs : FS) (p : PPath) : FS :=
  { fs with files := fs.files.filter fun e => e.1 ≠ p }

/-- `source.rename(target)` (single-device model, so the `shutil.move`
fallback of `_apply_move_step` coincides with a plain rename). -/
def renameFS (fs : FS) (s t : PPath) : Except String FS :=
  if existsFS fs s then
    .ok ⟨fs.dirs.map (replacePre s t),
      fs.files.map fun e => (replacePre s t e.1, e.2)⟩
  else .error "No such file or directory."

/-- `Path.rmdir()`: fails on anything but an existing empty directory. -/
def rmdirFS (fs : FS) (p : PPath) : Except String FS :=
  if isDirFS fs p then
    if (allPaths fs).any (fun q => q ≠ p ∧ q.take p.length = p) then
      .error "Directory not empty."
    else .ok { fs with dirs := fs.dirs.filter (· ≠ p) }
  else .error "No such file or directory."

/-- `Path.unlink()`. -/
def unlinkFS (fs : FS) (p : PPath) : Except String FS :=
  if p ∈ fs.files.map Prod.fst then .ok (removeFile fs p)
  else if isDirFS fs p then .error "Is a directory."
  else .error "No such file or directory."

/-- All non-empty prefixes of a path (the directories `mkdir -p` needs). -/
def prefixesOf (p : PPath) : List PPath :=
  (List.range p.length).map fun i => p.take (i + 1)

/-- `Path.mkdir(parents=True, ...)`: errors if an ancestor is a file. -/
def mkdirP (fs : FS) (p : PPath) : Except String FS :=
  if (prefixesOf p).any (fun q => q ∈ fs.files.map Prod.fst) then
    .error "Not a directory."
  else .ok { fs with dirs := fs.dirs ++ (prefixesOf p).filter (· ∉ fs.dirs) }

/-- `_apply_create(op)`. -/
def applyCreate (fs : FS) (op : Operation) : FS × ApplyResult :=
  match op.target with
  | none => (fs, ⟨op, .error, some "Missing target path."⟩)
  | some t =>
    match op.op_type with
    | .create_dir =>
      if existsFS fs t then
        if isDirFS fs t then
          (fs, ⟨op, .skipped, some "Directory already exists."⟩)
        else (fs, ⟨op, .error, some "Target exists and is not a directory."⟩)
      else
        match mkdirP fs t with
        | .ok fs1 => (fs1, ⟨op, .ok, none⟩)
        | .error e => (fs, ⟨op, .error, some e⟩)
    | .create_file =>
      if existsFS fs t then
        (fs, ⟨op, .error, some "Target file already exists."⟩)
      else
        match mkdirP fs (pathParent t) with
        | .error e => (fs, ⟨op, .error, some e⟩)
        | .ok fs1 =>
          ({ fs1 with files := fs1.files ++ [(t, "")] }, ⟨op, .ok, none⟩)
    | _ => (fs, ⟨op, .error, some "Unsupported create operation."⟩)

/-- `_apply_delete(op)`: `rmdir` for directories, `unlink` for files. -/
def applyDelete (fs : FS) (op : Operation) : FS × ApplyResult :=
  match op.source with
  | none => (fs, ⟨op, .error, some "Missing source path."⟩)
  | some s =>
    match (if op.is_dir then rmdirFS fs s else unlinkFS fs s) with
    | .ok fs1 => (fs1, ⟨op, .ok, none⟩)
    | .error e => (fs, ⟨op, .error, some e⟩)

/-- `_apply_move_step(source, target, is_dir)`. -/
def applyMoveStep (fs : FS) (source target : PPath) (is_dir : Bool) :
    Except String FS :=
  if ¬existsFS fs (pathParent target) then .error "Target parent does not exist."
  else if existsFS fs target then
    if is_dir then .error "Target directory already exists."
    else if isDirFS fs target then .error "Target is an existing directory."
    else renameFS (removeFile fs target) source target
  else renameFS fs source target

/-- Candidate `counter` of `_unique_temp_path` (`base`, then `base_1`,
`base_2`, ...). -/
def tempCandidate (source : PPath) : Nat → PPath
  | 0 => pathParent source ++ [pathName source ++ ".clipstui_tmp"]
  | k + 1 =>
    pathParent source ++ [pathName source ++ ".clipstui_tmp_" ++ natStr (k + 1)]

/-- The `while` loop of `_unique_temp_path`, fueled.  The fuel chosen in
`uniqueTempPath` always suffices (`uniqueTempPath_spec` below), so the
fuel-0 fallback is unreachable. -/
def uniqueTempAux (fs : FS) (existing : List (List Char)) (source : PPath) :
    Nat → Nat → PPath
  | 0, k => tempCandidate source k
  | fuel + 1, k =>
    let c := tempCandidate source k
    if pathKey c ∈ existing ∨ existsFS fs c then
      uniqueTempAux fs existing source fuel (k + 1)
    else c

/-- `_unique_temp_path(source, existing)` over the filesystem model. -/
def uniqueTempPath (fs : FS) (existing : List (List Char)) (source : PPath) :
    PPath :=
  uniqueTempAux fs existing source (existing.length + (allPaths fs).length + 1) 0

/-- Python-set insertion (membership semantics). -/
def insertKey (k : List Char) (s : List (List Char)) : List (List Char) :=
  if k ∈ s then s else k :: s

/-- One pass of the inner `for item in list(pending)` loop of
`_order_moves`: returns the remaining pending items (in order), the
updated `source_keys`, the steps emitted by the pass, and the `progress`
flag. -/
def execPass : List MoveItem → List (List Char) →
    List MoveItem × List (List Char) × List MoveStep × Bool
  | [], sk => ([], sk, [], false)
  | item :: rest, sk =>
    if pathKey item.target ∈ sk then
      let r := execPass rest sk
      (item :: r.1, r.2.1, r.2.2.1, r.2.2.2)
    else
      let r := execPass rest (sk.erase (pathKey item.source))
      (r.1, r.2.1, (⟨item.source, item.target, item.origin, item.is_dir⟩ :: r.2.2.1),
        true)

structure OrderState where
  pending : List MoveItem
  sk : List (List Char)
  ek : List (List Char)
  steps : List MoveStep
deriving DecidableEq, Repr

/-- One iteration of the `while pending` loop of `_order_moves`: run the
pass; if it made progress keep its result, otherwise break the cycle at
`pending[0]` via a fresh temporary name. -/
def orderStep (fs : FS) (s : OrderState) : OrderState :=
  match s.pending with
  | [] => s
  | item :: rest =>
    let passResult := execPass s.pending s.sk
    if passResult.2.2.2 then
      ⟨passResult.1, passResult.2.1, s.ek, s.steps ++ passResult.2.2.1⟩
    else
      let sk1 := s.sk.erase (pathKey item.source)
      let temp := uniqueTempPath fs s.ek item.source
      ⟨rest ++ [⟨temp, item.target, item.origin, item.is_dir⟩],
        insertKey (pathKey temp) sk1,
        insertKey (pathKey temp) s.ek,
        s.steps ++ [⟨item.source, temp, item.origin, item.is_dir⟩]⟩

/-- The `while pending` loop of `_order_moves`, fueled. -/
def orderLoop (fs : FS) : Nat → OrderState → OrderState
  | 0, s => s
  | fuel + 1, s =>
    if s.pending = [] then s else orderLoop fs fuel (orderStep fs s)

/-- The intake loop of `_order_moves` (lines 159-166): partition the move
operations into pending items and skipped results. -/
def intakeMoves (moves : List Operation) : List MoveItem × List ApplyResult :=
  moves.enum.foldl
    (fun (acc : List MoveItem × List ApplyResult) p =>
      match p.2.source, p.2.target with
      | some s, some t =>
        if pathKey s = pathKey t then
          (acc.1, acc.2 ++ [⟨p.2, .skipped, some "Source and target are the same."⟩])
        else (acc.1 ++ [⟨s, t, p.1, p.2.is_dir⟩], acc.2)
      | _, _ =>
        (acc.1, acc.2 ++ [⟨p.2, .error, some "Missing source or target."⟩]))
    ([], [])

/-- Build a Python set from a list of keys. -/
def keySet (ks : List (List Char)) : List (List Char) :=
  ks.foldl (fun acc k => insertKey k acc) []

/-- The initial loop state of `_order_moves` (lines 168-170). -/
def initialOrderState (moves : List Operation) : OrderState :=
  let pending := (intakeMoves moves).1
  ⟨pending, keySet (pending.map fun it => pathKey it.source),
    keySet ((pending.map fun it => pathKey it.source) ++
      pending.map fun it => pathKey it.target), []⟩

/-- The final loop state of `_order_moves`; fuel `(n + 2)^3` is shown
sufficient below (`orderMoves_terminates`). -/
def orderMovesState (fs : FS) (moves : List Operation) : OrderState :=
  orderLoop fs ((moves.length + 2) ^ 3) (initialOrderState moves)

def lookupStatus (st : List (Nat × ApplyResult)) (o : Nat) : Option ApplyResult :=
  (st.find? fun p => p.1 = o).map Prod.snd

def setStatus (st : List (Nat × ApplyResult)) (o : Nat) (r : ApplyResult) :
    List (Nat × ApplyResult) :=
  st.map fun p => if p.1 = o then (o, r) else p

/-- The step-execution loop of `_apply_moves` (lines 127-135). -/
def runSteps (fs : FS) :
    List MoveStep → List (Nat × ApplyResult) → FS × List (Nat × ApplyResult)
  | [], st => (fs, st)
  | step :: rest, st =>
    match lookupStatus st step.origin with
    | none => runSteps fs rest st
    | some r =>
      if r.status = .error then runSteps fs rest st
      else
        match applyMoveStep fs step.source step.target step.is_dir with
        | .ok fs1 => runSteps fs1 rest st
        | .error e =>
          runSteps fs rest (setStatus st step.origin ⟨r.operation, .error, some e⟩)

/-- `_apply_moves(moves)` over the filesystem model. -/
def applyMoves (fs : FS) (moves : List Operation) : FS × List ApplyResult :=
  let intake := intakeMoves moves
  let final := orderMovesState fs moves
  let statusInit := (moves.enum.filter fun p =>
    p.1 ∈ intake.1.map MoveItem.origin).map
    fun p => (p.1, (⟨p.2, .ok, none⟩ : ApplyResult))
  let run := runSteps fs final.steps statusInit
  (run.1, intake.2 ++ run.2.map Prod.snd)

/-- `apply_plan(plan)` over the filesystem model: creates, then moves,
then deletes (files before directories). -/
def apply_plan (fs : FS) (plan : OperationPlan) : FS × ApplyReport :=
  let creates := plan.operations.filter fun op =>
    op.op_type = .create_dir ∨ op.op_type = .create_file
  let moves := plan.operations.filter fun op => op.op_type = .move
  let deletes := plan.operations.filter fun op => op.op_type = .delete
  let afterCreates := creates.foldl
    (fun (acc : FS × List ApplyResult) op =>
      let r := applyCreate acc.1 op
      (r.1, acc.2 ++ [r.2]))
    (fs, [])
  let afterMoves := applyMoves afterCreates.1 moves
  let delete_files := deletes.filter fun op => ¬op.is_dir
  let delete_dirs := deletes.filter (·.is_dir)
  let afterDeletes := (delete_files ++ delete_dirs).foldl
    (fun (acc : FS × List ApplyResult) op =>
      let r := applyDelete acc.1 op
      (r.1, acc.2 ++ [r.2]))
    (afterMoves.1, [])
  (afterDeletes.1,
    ⟨afterCreates.2 ++ afterMoves.2 ++ afterDeletes.2⟩)

/-- Look up a file's content. -/
def lookupFile (fs : FS) (p : PPath) : Option String :=
  (fs.files.find? fun e => e.1 = p).map Prod.snd

/-! ## Claim theorems -/

set_option maxHeartbeats 4000000 in
/-- C1: For a plan containing the two move operations
`Move a.txt→b.txt` and `Move b.txt→a.txt` over files with contents `A`
and `B`, `apply_plan` swaps the contents: afterwards `a.txt` contains
`B` and `b.txt` contains `A`, both files still exist, and no operation
errors — the cycle is broken via the temporary name
`a.txt.clipstui_tmp` rather than overwriting. -/
theorem C1_swap_cycle (A B : String) :
    (apply_plan ⟨[["r"]], [(["r", "a.txt"], A), (["r", "b.txt"], B)]⟩
        ⟨["r"],
          [⟨.move, some ["r", "a.txt"], some ["r", "b.txt"], false⟩,
            ⟨.move, some ["r", "b.txt"], some ["r", "a.txt"], false⟩],
          [], [], [], []⟩).2.error_count = 0 ∧
    lookupFile (apply_plan ⟨[["r"]], [(["r", "a.txt"], A), (["r", "b.txt"], B)]⟩
        ⟨["r"],
          [⟨.move, some ["r", "a.txt"], some ["r", "b.txt"], false⟩,
            ⟨.move, some ["r", "b.txt"], some ["r", "a.txt"], false⟩],
          [], [], [], []⟩).1 ["r", "a.txt"] = some B ∧
    lookupFile (apply_plan ⟨[["r"]], [(["r", "a.txt"], A), (["r", "b.txt"], B)]⟩
        ⟨["r"],
          [⟨.move, some ["r", "a.txt"], some ["r", "b.txt"], false⟩,
            ⟨.move, some ["r", "b.txt"], some ["r", "a.txt"], false⟩],
          [], [], [], []⟩).1 ["r", "b.txt"] = some A ∧
    (orderMovesState ⟨[["r"]], [(["r", "a.txt"], A), (["r", "b.txt"], B)]⟩
        [⟨.move, some ["r", "a.txt"], some ["r", "b.txt"], false⟩,
          ⟨.move, some ["r", "b.txt"], some ["r", "a.txt"], false⟩]).steps =
      [⟨["r", "a.txt"], ["r", "a.txt.clipstui_tmp"], 0, false⟩,
        ⟨["r", "b.txt"], ["r", "a.txt"], 1, false⟩,
        ⟨["r", "a.txt.clipstui_tmp"], ["r", "b.txt"], 0, false⟩] :=
  ⟨rfl, rfl, rfl, rfl⟩

/-- C3 (code bug): a `Delete(is_dir=true)` on a directory that still
contains a file does **not** succeed: `_apply_delete` calls
`Path.rmdir()`, which fails on a non-empty directory, so the operation
reports an error and the directory survives — contradicting the spec and
the repository's own test `test_apply_plan_deletes_non_empty_directory`,
which asserts `error_count == 0` and that the directory is gone. -/
theorem C3_rmdir_not_recursive :
    (apply_plan ⟨[["r"], ["r", "folder"]], [(["r", "folder", "nested.txt"], "hello")]⟩
        ⟨["r"], [⟨.delete, some ["r", "folder"], none, true⟩], [], [], [], []⟩).2 =
      ⟨[⟨⟨.delete, some ["r", "folder"], none, true⟩, .error,
        some "Directory not empty."⟩]⟩ ∧
    isDirFS (apply_plan
        ⟨[["r"], ["r", "folder"]], [(["r", "folder", "nested.txt"], "hello")]⟩
        ⟨["r"], [⟨.delete, some ["r", "folder"], none, true⟩], [], [], [], []⟩).1
      ["r", "folder"] = true := by
  exact ⟨by decide, by decide⟩

lemma emitForEntry_cases (edited : List EditedEntry) (entry : PathEntry)
    (cls : EClass) (mt : Option Nat) :
    ∀ op ∈ emitForEntry edited entry cls mt,
      op = ⟨.delete, some entry.path, none, entry.is_dir⟩ ∨
      ∃ te : EditedEntry, pathKey entry.path ≠ pathKey te.path ∧
        op = ⟨.move, some entry.path, some te.path, entry.is_dir⟩ := by
  intro op hop
  cases cls with
  | keep => simp [emitForEntry] at hop
  | delete =>
    simp [emitForEntry] at hop
    exact Or.inl hop
  | move =>
    cases mt with
    | none => simp [emitForEntry] at hop
    | some tIdx =>
      cases hg : edited[tIdx]? with
      | none => simp [emitForEntry, hg] at hop
      | some te =>
        by_cases hk : pathKey entry.path = pathKey te.path
        · simp [emitForEntry, hg, hk] at hop
        · simp [emitForEntry, hg, hk] at hop
          exact Or.inr ⟨te, hk, hop⟩

lemma emitCreates_cases (edited : List EditedEntry) (creates : List Nat) :
    ∀ op ∈ emitCreates edited creates,
      ∃ te : EditedEntry,
        op = ⟨if te.is_dir_hint then .create_dir else .create_file, none,
          some te.path, te.is_dir_hint⟩ := by
  intro op hop
  simp only [emitCreates, List.mem_flatMap] at hop
  obtain ⟨idx, _, hmem⟩ := hop
  cases hg : edited[idx]? with
  | none => simp [hg] at hmem
  | some te =>
    simp [hg] at hmem
    exact ⟨te, hmem⟩

lemma emitOps_cases (entries : List PathEntry) (st : List EClass)
    (mts : List (Option Nat)) (edited : List EditedEntry)
    (creates : List Nat) :
    ∀ op ∈ emitOps entries st mts edited creates,
      (∃ e : PathEntry, op = ⟨.delete, some e.path, none, e.is_dir⟩) ∨
      (∃ (e : PathEntry) (te : EditedEntry),
        pathKey e.path ≠ pathKey te.path ∧
        op = ⟨.move, some e.path, some te.path, e.is_dir⟩) ∨
      (∃ te : EditedEntry,
        op = ⟨if te.is_dir_hint then .create_dir else .create_file, none,
          some te.path, te.is_dir_hint⟩) := by
  intro op hop
  simp only [emitOps, List.mem_append] at hop
  rcases hop with hop | hop
  · simp only [List.mem_flatMap] at hop
    obtain ⟨p, _, hmem⟩ := hop
    rcases emitForEntry_cases edited p.1 p.2.1 p.2.2 op hmem with h | ⟨te, hk, h⟩
    · exact Or.inl ⟨p.1, h⟩
    · exact Or.inr (Or.inl ⟨p.1, te, hk, h⟩)
  · exact Or.inr (Or.inr (emitCreates_cases edited creates op hop))

/-- C8: every operation emitted by `compute_plan` satisfies the shape
invariant: creates carry a target and no source, deletes a source and no
target, moves both, with source distinct from target. -/
theorem C8_operation_shape_invariant (root : PPath)
    (entries : List PathEntry) (lines : List String) :
    ∀ op ∈ (compute_plan root entries lines).operations,
      ((op.op_type = .create_file ∨ op.op_type = .create_dir) →
        op.source = none ∧ op.target ≠ none) ∧
      (op.op_type = .delete → op.source ≠ none ∧ op.target = none) ∧
      (op.op_type = .move →
        ∃ s t, op.source = some s ∧ op.target = some t ∧ s ≠ t) := by
  intro op hop
  have h := emitOps_cases _ _ _ _ _ op hop
  rcases h with ⟨e, rfl⟩ | ⟨e, te, hk, rfl⟩ | ⟨te, rfl⟩
  · refine ⟨?_, fun _ => ⟨by simp, rfl⟩, ?_⟩ <;> rintro (h | h) <;> simp at h
  · refine ⟨?_, by rintro h; simp at h, ?_⟩
    · rintro (h | h) <;> simp at h
    · intro _
      exact ⟨e.path, te.path, rfl, rfl, fun hst => hk (by rw [hst])⟩
  · refine ⟨fun _ => ⟨rfl, by simp⟩, ?_, ?_⟩ <;> intro h <;>
      by_cases hd : te.is_dir_hint <;> simp [hd] at h

theorem C8_operation_shape_invariant_witness :
    ((⟨.delete, some ["r", "b.txt"], none, false⟩ : Operation).source ≠ none ∧
      (⟨.delete, some ["r", "b.txt"], none, false⟩ : Operation).target = none) :=
  (C8_operation_shape_invariant ["r"]
    [⟨["r", "a.txt"], false⟩, ⟨["r", "b.txt"], false⟩] ["a.txt"]
    ⟨.delete, some ["r", "b.txt"], none, false⟩ (by decide)).2.1 rfl

/-- C4 counterexample: the move-degeneration check of `compute_plan`
(line 165, `_path_key(entry.path) == _path_key(target_entry.path)`) is a
*case-folded* comparison, not path identity.  Editing the listing entry
`A.txt` to `a.txt` yields a replace-classified move whose resolved
target `/r/a.txt` differs from its source `/r/A.txt` as a path, yet no
operation is emitted because the case-folded keys coincide — under the
claim ("decided by path identity, not case-folded comparison") a `Move`
would have been produced. -/
theorem C4_casefold_identity_counterexample :
    (compute_plan ["r"] [⟨["r", "A.txt"], false⟩] ["a.txt"]).operations = [] ∧
    (compute_plan ["r"] [⟨["r", "A.txt"], false⟩] ["a.txt"]).edited_entries =
      [⟨"a.txt", ["r", "a.txt"], ["a.txt"], "a.txt", false⟩] ∧
    (["r", "A.txt"] : PPath) ≠ ["r", "a.txt"] ∧
    pathKey ["r", "A.txt"] = pathKey ["r", "a.txt"] := by decide

/-- C4 (amended): an original entry classified as a move degenerates to
"keep" (no operation) exactly when its resolved target has the same
*case-folded* path key (`_path_key`) as its source: every move operation
`compute_plan` emits has case-fold-distinct (hence distinct) source and
target, and a key-equal pair is suppressed
(`C4_casefold_identity_counterexample`). -/
theorem C4_move_identity_by_casefold_key (root : PPath)
    (entries : List PathEntry) (lines : List String) :
    ∀ op ∈ (compute_plan root entries lines).operations,
      op.op_type = .move →
      ∃ s t, op.source = some s ∧ op.target = some t ∧
        pathKey s ≠ pathKey t := by
  intro op hop _
  rcases emitOps_cases _ _ _ _ _ op hop with ⟨e, rfl⟩ | ⟨e, te, hk, rfl⟩ | ⟨te, rfl⟩
  · simp at *
  · exact ⟨e.path, te.path, rfl, rfl, hk⟩
  · refine absurd ‹Operation.op_type _ = OperationType.move› ?_
    by_cases hd : te.is_dir_hint <;> simp [hd]

theorem C4_move_identity_by_casefold_key_witness :
    ∃ s t, (⟨.move, some ["r", "a.txt"], some ["r", "b.txt"], false⟩ :
        Operation).source = some s ∧
      (⟨.move, some ["r", "a.txt"], some ["r", "b.txt"], false⟩ :
        Operation).target = some t ∧
      pathKey s ≠ pathKey t :=
  C4_move_identity_by_casefold_key ["r"] [⟨["r", "a.txt"], false⟩] ["b.txt"]
    ⟨.move, some ["r", "a.txt"], some ["r", "b.txt"], false⟩ (by decide) rfl

/-- C6: one step of the delete-marker loop of `compute_plan` (lines
139-156).  A marker whose key matches no original entry appends the
"does not match" error; a key also present among edited entries appends
the "conflicts with an edited entry" error; a marker whose original
entry is classified `move` appends the "conflicts with a rename/move"
error; otherwise, and only then, the entry's classification is forced to
`delete`.  In each error case the classification state is returned
unchanged, so no operation is emitted for the marker. -/
theorem C6_delete_marker_branches (normsIndex : String → Option Nat)
    (editedNormSet : List String) (state : List EClass)
    (errs : List ValidationError) (marker : DeleteMarker) :
    (normsIndex marker.norm = none →
      markerStep normsIndex editedNormSet (state, errs) marker =
        (state, errs ++
          [⟨"Delete marker does not match existing entry.", some marker.path⟩])) ∧
    (∀ idx, normsIndex marker.norm = some idx →
      marker.norm ∈ editedNormSet →
      markerStep normsIndex editedNormSet (state, errs) marker =
        (state, errs ++
          [⟨"Delete marker conflicts with an edited entry.", some marker.path⟩])) ∧
    (∀ idx, normsIndex marker.norm = some idx →
      marker.norm ∉ editedNormSet →
      state[idx]? = some .move →
      markerStep normsIndex editedNormSet (state, errs) marker =
        (state, errs ++
          [⟨"Delete marker conflicts with a rename/move.", some marker.path⟩])) ∧
    (∀ idx, normsIndex marker.norm = some idx →
      marker.norm ∉ editedNormSet →
      state[idx]? ≠ some .move →
      markerStep normsIndex editedNormSet (state, errs) marker =
        (state.set idx .delete, errs)) := by
  refine ⟨?_, ?_, ?_, ?_⟩
  · intro h
    simp [markerStep, h]
  · intro idx h hmem
    simp [markerStep, h, hmem]
  · intro idx h hmem hmove
    simp [markerStep, h, hmem, hmove]
  · intro idx h hmem hmove
    simp [markerStep, h, hmem, hmove]

/-- C7: for a `Move` operation of a plan whose target already exists on
the filesystem, `validate_plan` reports "Target directory already
exists." when the move is a directory move, and "Target is an existing
directory." when a file move's existing target is a directory; a
file-over-file collision contributes no error from the
target-exists check (`moveTargetExistsErrors`, lines 244-248). -/
theorem C7_move_collision (fs : FS) (plan : OperationPlan) (op : Operation)
    (s t : PPath) (hop : op ∈ plan.operations) (hty : op.op_type = .move)
    (hs : op.source = some s) (ht : op.target = some t)
    (hex : existsFS fs t = true) :
    (op.is_dir = true →
      (⟨"Target directory already exists.", some t⟩ : ValidationError) ∈
        validate_plan fs plan) ∧
    (op.is_dir = false → isDirFS fs t = true →
      (⟨"Target is an existing directory.", some t⟩ : ValidationError) ∈
        validate_plan fs plan) ∧
    (op.is_dir = false → isDirFS fs t = false →
      moveTargetExistsErrors fs op.is_dir t = []) := by
  have hmem : ∀ e : ValidationError,
      e ∈ moveTargetExistsErrors fs op.is_dir t → e ∈ validate_plan fs plan := by
    intro e he
    have h1 : e ∈ opErrors fs (resolveAbs plan.root)
        (plannedDirs (resolveAbs plan.root) plan.original_entries plan.operations)
        op := by
      simp only [opErrors, hty, hs, ht]
      simp [List.mem_append, he]
    simp only [validate_plan, List.mem_append, List.mem_flatMap]
    exact Or.inr ⟨op, hop, h1⟩
  refine ⟨?_, ?_, ?_⟩
  · intro hd
    exact hmem _ (by simp [moveTargetExistsErrors, hex, hd])
  · intro hd hdir
    exact hmem _ (by simp [moveTargetExistsErrors, hex, hd, hdir])
  · intro hd hdir
    simp [moveTargetExistsErrors, hex, hd, hdir]

theorem C6_delete_marker_branches_witness :
    markerStep (normToIndex ["a.txt", "b.txt"]) ["a.txt"]
        ([.keep, .keep], []) ⟨"[DELETE] b.txt", ["r", "b.txt"], ["b.txt"], "b.txt"⟩ =
      ([.keep, .delete], []) :=
  (C6_delete_marker_branches (normToIndex ["a.txt", "b.txt"]) ["a.txt"]
    [.keep, .keep] [] ⟨"[DELETE] b.txt", ["r", "b.txt"], ["b.txt"], "b.txt"⟩).2.2.2
    1 (by decide) (by decide) (by decide)

theorem C7_move_collision_witness :
    (⟨"Target is an existing directory.", some ["r", "d"]⟩ : ValidationError) ∈
      validate_plan ⟨[["r"], ["r", "d"]], [(["r", "f.txt"], "x")]⟩
        ⟨["r"], [⟨.move, some ["r", "a"], some ["r", "d"], false⟩],
          [], [], [], []⟩ :=
  (C7_move_collision ⟨[["r"], ["r", "d"]], [(["r", "f.txt"], "x")]⟩
    ⟨["r"], [⟨.move, some ["r", "a"], some ["r", "d"], false⟩], [], [], [], []⟩
    ⟨.move, some ["r", "a"], some ["r", "d"], false⟩ ["r", "a"] ["r", "d"]
    (by decide) rfl rfl rfl (by decide)).2.1 rfl (by decide)

lemma dropWhile_dropWhile_of_imp {p q : Char → Bool}
    (h : ∀ c, p c = true → q c = true) (l : List Char) :
    (l.dropWhile p).dropWhile q = l.dropWhile q := by
  induction l with
  | nil => rfl
  | cons c t ih =>
    by_cases hc : p c = true
    · rw [List.dropWhile_cons_of_pos hc, ih, List.dropWhile_cons_of_pos (h c hc)]
    · rw [List.dropWhile_cons_of_neg hc]

lemma head?_dropWhile {p : Char → Bool} {l : List Char} {c : Char}
    (h : (l.dropWhile p).head? = some c) : p c = false := by
  induction l with
  | nil => simp at h
  | cons a t ih =>
    by_cases ha : p a = true
    · rw [List.dropWhile_cons_of_pos ha] at h
      exact ih h
    · rw [List.dropWhile_cons_of_neg ha] at h
      simp at h
      rw [← h]
      simpa using ha

lemma pyRStrip_getLast {p : Char → Bool} {l : List Char} {c : Char}
    (h : (pyRStrip p l).getLast? = some c) : p c = false := by
  unfold pyRStrip at h
  rw [List.getLast?_reverse] at h
  exact head?_dropWhile h

lemma pyRStrip_eq_self {p : Char → Bool} {l : List Char} {c : Char}
    (h : l.getLast? = some c) (hc : p c = false) : pyRStrip p l = l := by
  unfold pyRStrip
  rw [← List.head?_reverse] at h
  cases hr : l.reverse with
  | nil => rw [hr] at h; simp at h
  | cons a t =>
    rw [hr] at h
    simp at h
    have hl : l = (a :: t).reverse := by
      rw [← List.reverse_reverse l, hr]
    rw [List.dropWhile_cons_of_neg (by rw [h]; simp [hc])]
    exact hl.symm

lemma stripChars_getLast {p : Char → Bool} {l : List Char} {c : Char}
    (h : (pyStripChars p l).getLast? = some c) : p c = false := by
  unfold pyStripChars pyLStrip at h
  obtain ⟨t, ht⟩ := List.dropWhile_suffix (l := pyRStrip p l) (p := p)
  have hne : (pyRStrip p l).dropWhile p ≠ [] := by
    intro hemp
    rw [hemp] at h
    simp at h
  have h2 : (pyRStrip p l).getLast? = some c := by
    rw [← ht, List.getLast?_append_of_ne_nil _ hne]
    exact h
  exact pyRStrip_getLast h2

lemma stripChars_head {p : Char → Bool} {l : List Char} {c : Char}
    (h : (pyStripChars p l).head? = some c) : p c = false :=
  head?_dropWhile h

lemma pyStrip_pyRstripNl (s : String) : pyStrip (pyRstripNl s) = pyStrip s := by
  show (⟨pyStripChars pyIsSpace (pyRStrip (fun c => c = '\n') s.data)⟩ : String) = _
  unfold pyStripChars pyLStrip pyRStrip
  rw [List.reverse_reverse,
    dropWhile_dropWhile_of_imp (fun c hc => by
      have : c = '\n' := by simpa using hc
      subst this
      decide)]
  rfl

/-- C9: applying `toggle_delete_marker` twice to a line whose stripped
text is non-empty and which is not already a delete-marker line yields
exactly the stripped text of the original line (marker on, then off,
round-trips up to whitespace trimming). -/
theorem C9_toggle_round_trip (line : String)
    (hne : pyStrip line ≠ "") (hnm : is_delete_marker_line line = false) :
    toggle_delete_marker (toggle_delete_marker line) = pyStrip line := by
  have hslne : (pyStrip line).data ≠ [] := by
    intro h
    exact hne (String.ext h)
  obtain ⟨lc, hlc⟩ : ∃ c, (pyStrip line).data.getLast? = some c :=
    Option.isSome_iff_exists.mp (List.getLast?_isSome.mpr hslne)
  have hlcns : pyIsSpace lc = false := stripChars_getLast hlc
  have hdata : (DELETE_MARKER ++ " " ++ pyStrip line).data
      = "[DELETE]".data ++ ' ' :: (pyStrip line).data := by
    show ("[DELETE]".data ++ [' ']) ++ (pyStrip line).data = _
    rw [List.append_assoc]
    rfl
  have htext : pyStrip (pyRstripNl line) = pyStrip line := pyStrip_pyRstripNl line
  have hm2 : is_delete_marker_line (pyRstripNl line) = false := by
    simp only [is_delete_marker_line] at hnm ⊢
    rw [htext]
    exact hnm
  have hmark : toggle_delete_marker line = DELETE_MARKER ++ " " ++ pyStrip line := by
    simp only [toggle_delete_marker]
    rw [htext, hm2]
    simp [hne]
  have hmlast : (DELETE_MARKER ++ " " ++ pyStrip line).data.getLast? = some lc := by
    rw [hdata, List.getLast?_append_of_ne_nil _ (by simp)]
    show ([' '] ++ (pyStrip line).data).getLast? = some lc
    rw [List.getLast?_append_of_ne_nil _ hslne]
    exact hlc
  have hrs : pyRstripNl (DELETE_MARKER ++ " " ++ pyStrip line)
      = DELETE_MARKER ++ " " ++ pyStrip line := by
    show (⟨pyRStrip _ _⟩ : String) = _
    rw [pyRStrip_eq_self hmlast (by
      have : ¬lc = '\n' := by
        intro h
        rw [h] at hlcns
        simp [pyIsSpace] at hlcns
      simpa using this)]
  have hstrip : pyStrip (DELETE_MARKER ++ " " ++ pyStrip line)
      = DELETE_MARKER ++ " " ++ pyStrip line := by
    show (⟨pyStripChars pyIsSpace _⟩ : String) = _
    unfold pyStripChars pyLStrip
    rw [pyRStrip_eq_self hmlast hlcns, hdata]
    show (⟨List.dropWhile pyIsSpace
      ('[' :: ("DELETE]".data ++ ' ' :: (pyStrip line).data))⟩ : String) = _
    rw [List.dropWhile_cons_of_neg (by decide)]
    show (⟨("[DELETE]".data ++ ' ' :: (pyStrip line).data : List Char)⟩ : String) = _
    rw [← hdata]
  have hmarkne : DELETE_MARKER ++ " " ++ pyStrip line ≠ "" := by
    intro h
    have h2 := congrArg String.data h
    rw [hdata] at h2
    simp at h2
  have himark : is_delete_marker_line (DELETE_MARKER ++ " " ++ pyStrip line)
      = true := by
    simp only [is_delete_marker_line]
    rw [hstrip]
    simp only [pyStartsWith, pyUpper, hdata, List.map_append]
    rw [show List.map pyUpperChar "[DELETE]".data = "[DELETE]".data from by decide]
    rw [decide_eq_true_eq]
    have h8 : ("[DELETE]".data).length = DELETE_MARKER.data.length := rfl
    rw [← h8, List.take_left]
    rfl
  have hslid : List.dropWhile pyIsSpace (pyStrip line).data
      = (pyStrip line).data := by
    cases hsl' : (pyStrip line).data with
    | nil => rfl
    | cons a t =>
      have ha : pyIsSpace a = false := by
        refine stripChars_head (p := pyIsSpace) (l := line.data) (c := a) ?_
        show (pyStrip line).data.head? = some a
        rw [hsl']
        rfl
      rw [List.dropWhile_cons_of_neg (by simp [ha])]
  rw [hmark]
  simp only [toggle_delete_marker]
  rw [hrs, hstrip]
  rw [if_neg hmarkne, himark]
  simp only [if_true]
  simp only [strip_delete_marker]
  rw [if_neg (by rw [himark]; exact not_not_intro rfl)]
  rw [hstrip, hdata]
  show pyLstripWs ⟨("[DELETE]".data ++ ' ' :: (pyStrip line).data).drop
    ("[DELETE]".data).length⟩ = pyStrip line
  rw [List.drop_left]
  show (⟨List.dropWhile pyIsSpace (' ' :: (pyStrip line).data)⟩ : String) = _
  rw [List.dropWhile_cons_of_pos (by decide), hslid]

theorem C9_toggle_round_trip_witness :
    toggle_delete_marker (toggle_delete_marker " folder/ ") = pyStrip " folder/ " :=
  C9_toggle_round_trip " folder/ " (by decide) (by decide)

/-! ### `SequenceMatcher` on two equal sequences finds only an `equal` run -/

/-- The `k` computed for column `j` of row `i` in `find_longest_match`. -/
def kval (j2len : Nat → Nat) (j : Nat) : Nat :=
  (if j = 0 then 0 else j2len (j - 1)) + 1

lemma flmInner_cons_process (n i : Nat) (j2len : Nat → Nat) (j : Nat)
    (rest : List Nat) (nw : Nat → Nat) (best : FlmBest) (hj : j < n) :
    flmInner 0 n i j2len (j :: rest) nw best =
      flmInner 0 n i j2len rest
        (fun j' => if j' = j then kval j2len j else nw j')
        (if best.bestsize < kval j2len j then
          ⟨i + 1 - kval j2len j, j + 1 - kval j2len j, kval j2len j⟩
        else best) := by
  simp [flmInner, kval, Nat.not_lt_zero, Nat.not_le.mpr hj]

lemma flmInner_best_stable (n i : Nat) (j2len : Nat → Nat) :
    ∀ (l : List Nat) (nw : Nat → Nat) (best : FlmBest),
      (∀ j ∈ l, j < n) → (∀ j ∈ l, kval j2len j ≤ best.bestsize) →
      (flmInner 0 n i j2len l nw best).2 = best := by
  intro l
  induction l with
  | nil => intro nw best _ _; rfl
  | cons j rest ih =>
    intro nw best hlt hk
    rw [flmInner_cons_process n i j2len j rest nw best (hlt j (by simp))]
    rw [if_neg (Nat.not_lt.mpr (hk j (by simp)))]
    exact ih _ best (fun x hx => hlt x (by simp [hx]))
      (fun x hx => hk x (by simp [hx]))

lemma flmInner_nw_le (n i : Nat) (j2len : Nat → Nat) :
    ∀ (l : List Nat) (nw : Nat → Nat) (best : FlmBest),
      (∀ j ∈ l, j < n) → (∀ j', nw j' ≤ min (i + 1) (j' + 1)) →
      (∀ j ∈ l, kval j2len j ≤ min (i + 1) (j + 1)) →
      ∀ j', (flmInner 0 n i j2len l nw best).1 j' ≤ min (i + 1) (j' + 1) := by
  intro l
  induction l with
  | nil => intro nw best _ hnw _; exact hnw
  | cons j rest ih =>
    intro nw best hlt hnw hk
    rw [flmInner_cons_process n i j2len j rest nw best (hlt j (by simp))]
    refine ih _ _ (fun x hx => hlt x (by simp [hx])) ?_
      (fun x hx => hk x (by simp [hx]))
    intro j'
    by_cases hj : j' = j
    · subst hj
      simp only [if_pos rfl]
      exact hk j' (by simp)
    · simp only [if_neg hj]
      exact hnw j'

lemma flmInner_nw_notin (n i : Nat) (j2len : Nat → Nat) :
    ∀ (l : List Nat) (nw : Nat → Nat) (best : FlmBest),
      (∀ j ∈ l, j < n) → ∀ j', j' ∉ l →
      (flmInner 0 n i j2len l nw best).1 j' = nw j' := by
  intro l
  induction l with
  | nil => intro nw best _ j' _; rfl
  | cons j rest ih =>
    intro nw best hlt j' hj'
    rw [flmInner_cons_process n i j2len j rest nw best (hlt j (by simp))]
    rw [ih _ _ (fun x hx => hlt x (by simp [hx])) j'
      (fun h => hj' (List.mem_cons_of_mem _ h))]
    exact if_neg fun h => hj' (by rw [h]; exact List.mem_cons_self _ _)

lemma flmInner_append (n i : Nat) (j2len : Nat → Nat) :
    ∀ (l₁ l₂ : List Nat) (nw : Nat → Nat) (best : FlmBest),
      (∀ j ∈ l₁, j < n) →
      flmInner 0 n i j2len (l₁ ++ l₂) nw best =
        flmInner 0 n i j2len l₂ (flmInner 0 n i j2len l₁ nw best).1
          (flmInner 0 n i j2len l₁ nw best).2 := by
  intro l₁
  induction l₁ with
  | nil => intro l₂ nw best _; rfl
  | cons j rest ih =>
    intro l₂ nw best hlt
    rw [List.cons_append,
      flmInner_cons_process n i j2len j (rest ++ l₂) nw best (hlt j (by simp)),
      flmInner_cons_process n i j2len j rest nw best (hlt j (by simp))]
    exact ih _ _ _ (fun x hx => hlt x (by simp [hx]))

lemma b2j_split (a : List String) (i : Nat) (hi : i < a.length) :
    ∃ l₁ l₂, b2j a (a.getD i "") = l₁ ++ i :: l₂ ∧
      (∀ j ∈ l₁, j < i) ∧ (∀ j ∈ l₂, i < j) ∧
      (∀ j ∈ l₁, j < a.length) ∧ (∀ j ∈ l₂, j < a.length) := by
  have hg : a.get? i = some (a.getD i "") := by
    rw [List.getD_eq_getElem?_getD, List.get?_eq_get hi]
    simp [List.getElem?_eq_getElem hi]
  have h1 : List.range' 0 i ++ List.range' i (a.length - i) =
      List.range' 0 a.length := by
    have h := List.range'_append 0 i (a.length - i) 1
    simpa [Nat.sub_add_cancel (le_of_lt hi)] using h
  have h2 : List.range' i (a.length - i) =
      i :: List.range' (i + 1) (a.length - i - 1) := by
    have h3 : a.length - i = (a.length - i - 1) + 1 := by omega
    conv_lhs => rw [h3]
    rfl
  refine ⟨(List.range' 0 i).filter (fun j => a.get? j = some (a.getD i "")),
    (List.range' (i + 1) (a.length - i - 1)).filter
      (fun j => a.get? j = some (a.getD i "")), ?_, ?_, ?_, ?_, ?_⟩
  · show (List.range a.length).filter _ = _
    rw [List.range_eq_range', ← h1, List.filter_append, h2,
      List.filter_cons_of_pos (by simpa using hg)]
  · intro j hj
    have := (List.mem_range'_1.mp (List.mem_filter.mp hj).1).2
    omega
  · intro j hj
    have := (List.mem_range'_1.mp (List.mem_filter.mp hj).1).1
    omega
  · intro j hj
    have := (List.mem_range'_1.mp (List.mem_filter.mp hj).1).2
    omega
  · intro j hj
    have := (List.mem_range'_1.mp (List.mem_filter.mp hj).1).2
    omega

lemma kval_le (i : Nat) (j2len : Nat → Nat)
    (hb : ∀ j, j2len j ≤ min i (j + 1)) (j : Nat) :
    kval j2len j ≤ min i j + 1 := by
  unfold kval
  by_cases hj : j = 0
  · simp [hj]
  · have := hb (j - 1)
    have hmin : min i (j - 1 + 1) = min i j := by omega
    simp only [if_neg hj]
    omega

lemma flm_iter_self (a : List String) (i : Nat) (hi : i < a.length)
    (j2len : Nat → Nat) (hb : ∀ j, j2len j ≤ min i (j + 1))
    (hd : i = 0 ∨ j2len (i - 1) = i) :
    (flmInner 0 a.length i j2len (b2j a (a.getD i "")) (fun _ => 0)
        ⟨0, 0, i⟩).2 = ⟨0, 0, i + 1⟩ ∧
    (∀ j', (flmInner 0 a.length i j2len (b2j a (a.getD i "")) (fun _ => 0)
        ⟨0, 0, i⟩).1 j' ≤ min (i + 1) (j' + 1)) ∧
    (flmInner 0 a.length i j2len (b2j a (a.getD i "")) (fun _ => 0)
        ⟨0, 0, i⟩).1 i = i + 1 := by
  obtain ⟨l₁, l₂, hsplit, hl₁, hl₂, hn₁, hn₂⟩ := b2j_split a i hi
  have hkd : kval j2len i = i + 1 := by
    unfold kval
    rcases hd with hd | hd
    · simp [hd]
    · have hi0 : i ≠ 0 ∨ i = 0 := by omega
      by_cases h0 : i = 0
      · simp [h0]
      · simp [h0, hd]
  have hkle : ∀ j, kval j2len j ≤ min i j + 1 := kval_le i j2len hb
  rw [hsplit, flmInner_append _ _ _ _ _ _ _ hn₁]
  have hbest₁ : (flmInner 0 a.length i j2len l₁ (fun _ => 0) ⟨0, 0, i⟩).2 =
      ⟨0, 0, i⟩ := by
    refine flmInner_best_stable _ _ _ _ _ _ hn₁ ?_
    intro j hj
    have h1 := hkle j
    have h2 := hl₁ j hj
    show kval j2len j ≤ i
    omega
  have hnw₁ : ∀ j', (flmInner 0 a.length i j2len l₁ (fun _ => 0)
      ⟨0, 0, i⟩).1 j' ≤ min (i + 1) (j' + 1) := by
    refine flmInner_nw_le _ _ _ _ _ _ hn₁ (by simp) ?_
    intro j hj
    have := hkle j
    omega
  rw [hbest₁]
  rw [flmInner_cons_process _ _ _ _ _ _ _ hi, hkd, if_pos (by simp)]
  have hbest₂ : (⟨i + 1 - (i + 1), i + 1 - (i + 1), i + 1⟩ : FlmBest) =
      ⟨0, 0, i + 1⟩ := by simp
  rw [hbest₂]
  have hn₂' : ∀ j ∈ l₂, j < a.length := hn₂
  have hkle₂ : ∀ j ∈ l₂, kval j2len j ≤ (⟨0, 0, i + 1⟩ : FlmBest).bestsize := by
    intro j hj
    have := hkle j
    show kval j2len j ≤ i + 1
    omega
  refine ⟨flmInner_best_stable _ _ _ _ _ _ hn₂' hkle₂, ?_, ?_⟩
  · refine flmInner_nw_le _ _ _ _ _ _ hn₂' ?_ ?_
    · intro j'
      by_cases hj : j' = i
      · rw [if_pos hj]
        omega
      · rw [if_neg hj]
        exact hnw₁ j'
    · intro j hj
      have := hkle j
      omega
  · rw [flmInner_nw_notin _ _ _ _ _ _ hn₂' i
      (fun h => by have := hl₂ i h; omega)]
    simp [hkd]

lemma flmOuter_self (a : List String) :
    ∀ (m i₀ : Nat), i₀ + m = a.length →
      ∀ (j2len : Nat → Nat), (∀ j, j2len j ≤ min i₀ (j + 1)) →
      (i₀ = 0 ∨ j2len (i₀ - 1) = i₀) →
      flmOuter a a 0 a.length (List.range' i₀ m) j2len ⟨0, 0, i₀⟩ =
        ⟨0, 0, a.length⟩ := by
  intro m
  induction m with
  | zero =>
    intro i₀ hsum j2len _ _
    show (⟨0, 0, i₀⟩ : FlmBest) = ⟨0, 0, a.length⟩
    rw [← hsum]
    simp
  | succ m ih =>
    intro i₀ hsum j2len hb hd
    have hi : i₀ < a.length := by omega
    show flmOuter a a 0 a.length (i₀ :: List.range' (i₀ + 1) m) j2len
      ⟨0, 0, i₀⟩ = ⟨0, 0, a.length⟩
    obtain ⟨hbest, hnw, hdiag⟩ := flm_iter_self a i₀ hi j2len hb hd
    show flmOuter a a 0 a.length (List.range' (i₀ + 1) m)
      (flmInner 0 a.length i₀ j2len (b2j a (a.getD i₀ "")) (fun _ => 0)
        ⟨0, 0, i₀⟩).1
      (flmInner 0 a.length i₀ j2len (b2j a (a.getD i₀ "")) (fun _ => 0)
        ⟨0, 0, i₀⟩).2 = ⟨0, 0, a.length⟩
    rw [hbest]
    exact ih (i₀ + 1) (by omega) _ hnw (Or.inr (by simpa using hdiag))

lemma flmExtLow_stop (a b : List String) (alo blo : Nat) (fuel : Nat)
    (best : FlmBest) (h : ¬alo < best.besti) :
    flmExtLow a b alo blo fuel best = best := by
  cases fuel with
  | zero => rfl
  | succ fuel => simp [flmExtLow, h]

lemma flmExtHigh_stop (a b : List String) (ahi bhi besti bestj : Nat)
    (fuel bestsize : Nat) (h : ¬besti + bestsize < ahi) :
    flmExtHigh a b ahi bhi besti bestj fuel bestsize = bestsize := by
  cases fuel with
  | zero => rfl
  | succ fuel => simp [flmExtHigh, h]

lemma findLongestMatch_self (a : List String) :
    findLongestMatch a a 0 a.length 0 a.length = (0, 0, a.length) := by
  unfold findLongestMatch
  have houter : flmOuter a a 0 a.length (List.range' 0 (a.length - 0))
      (fun _ => 0) ⟨0, 0, 0⟩ = ⟨0, 0, a.length⟩ :=
    flmOuter_self a (a.length - 0) 0 (by omega) _ (by simp) (Or.inl rfl)
  rw [houter]
  have hlow := flmExtLow_stop a a 0 0 0 (⟨0, 0, a.length⟩ : FlmBest) (by simp)
  have hhigh := flmExtHigh_stop a a a.length a.length 0 0 a.length a.length
    (by simp)
  simp [hlow, hhigh]

lemma findLongestMatch_empty (a b : List String) (x y : Nat) :
    findLongestMatch a b x x y y = (x, y, 0) := by
  unfold findLongestMatch
  have h0 : x - x = 0 := by omega
  rw [h0]
  rw [show flmOuter a b y y (List.range' x 0) (fun _ => 0) ⟨x, y, 0⟩ =
    (⟨x, y, 0⟩ : FlmBest) from rfl]
  have hlow := flmExtLow_stop a b x y x (⟨x, y, 0⟩ : FlmBest) (by simp)
  have hhigh := flmExtHigh_stop a b x y x y x 0 (by simp)
  simp [hlow, hhigh]

lemma matchingBlocksAux_empty (a b : List String) (fuel x y : Nat) :
    matchingBlocksAux a b (fuel + 1) x x y y = [] := by
  simp [matchingBlocksAux, findLongestMatch_empty]

lemma getMatchingBlocks_self (a : List String) :
    getMatchingBlocks a a =
      if a.length = 0 then [(0, 0, 0)]
      else [(0, 0, a.length), (a.length, a.length, 0)] := by
  unfold getMatchingBlocks
  by_cases hn : a.length = 0
  · rw [if_pos hn, hn]
    rw [show matchingBlocksAux a a (0 + 0 + 1) 0 0 0 0 = [] from
      matchingBlocksAux_empty a a 0 0 0]
    rfl
  · obtain ⟨m, hm⟩ : ∃ m, a.length = m + 1 := ⟨a.length - 1, by omega⟩
    rw [if_neg hn, hm]
    have hflm : findLongestMatch a a 0 (m + 1) 0 (m + 1) = (0, 0, m + 1) := by
      rw [← hm]
      exact findLongestMatch_self a
    have haux : matchingBlocksAux a a (m + 1 + (m + 1) + 1) 0 (m + 1) 0
        (m + 1) = [(0, 0, m + 1)] := by
      rw [show m + 1 + (m + 1) + 1 = (2 * m + 1 + 1) + 1 from by omega]
      unfold matchingBlocksAux
      rw [hflm]
      rw [if_neg (by simp)]
      rw [show (2 * m + 1 + 1) = (2 * m + 1) + 1 from by omega,
        matchingBlocksAux_empty]
      dsimp only
      rw [show (0 : Nat) + (m + 1) = m + 1 from by omega]
      rw [matchingBlocksAux_empty]
      simp
    rw [haux]
    simp [mergeBlocks]

lemma getOpcodes_self (a : List String) :
    getOpcodes a a =
      if a.length = 0 then []
      else [(.equal, 0, a.length, 0, a.length)] := by
  unfold getOpcodes
  rw [getMatchingBlocks_self]
  by_cases hn : a.length = 0
  · simp [hn, opcodesWalk]
  · rw [if_neg hn, if_neg hn]
    simp [opcodesWalk, hn]

lemma classify_self (a : List String) (cs : ClassState) :
    (getOpcodes a a).foldl applyOpcode cs = cs := by
  rw [getOpcodes_self]
  by_cases hn : a.length = 0
  · simp [hn]
  · simp [hn, applyOpcode]

lemma emitOps_keep (entries : List PathEntry) (m : Nat)
    (mts : List (Option Nat)) (edited : List EditedEntry) :
    emitOps entries (List.replicate m EClass.keep) mts edited [] = [] := by
  unfold emitOps emitCreates
  rw [List.flatMap_nil]
  rw [List.append_nil]
  refine List.flatMap_eq_nil_iff.mpr ?_
  intro p hp
  obtain ⟨e, q⟩ := p
  obtain ⟨cls, mt⟩ := q
  have h1 := (List.of_mem_zip hp).2
  have h2 := (List.of_mem_zip h1).1
  have h3 : cls = EClass.keep := List.eq_of_mem_replicate h2
  rw [h3]
  rfl

/-- C5: if the edited buffer is identical to the original listing after
normalization (the parsed edited entries' normalized keys equal the
original entries' normalized keys, with no delete markers), then
`compute_plan` produces zero operations. -/
theorem C5_round_trip_identity (root : PPath) (entries : List PathEntry)
    (lines : List String)
    (hnorm : (compute_plan root entries lines).edited_entries.map (·.norm) =
      entries.map fun e => normalizeRel (relToRoot (resolveAbs root) e.path))
    (hmark : (compute_plan root entries lines).delete_markers = []) :
    (compute_plan root entries lines).operations = [] := by
  have hnorm' : (parseLines (resolveAbs root) lines).2.1.map (·.norm) =
      entries.map fun e => normalizeRel (relToRoot (resolveAbs root) e.path) :=
    hnorm
  have hmark' : (parseLines (resolveAbs root) lines).2.2 = [] := hmark
  simp only [compute_plan]
  rw [hmark', hnorm', classify_self, List.foldl_nil]
  exact emitOps_keep entries entries.length _ _

theorem C5_round_trip_identity_witness :
    (compute_plan ["r"] [⟨["r", "a.txt"], false⟩] ["a.txt"]).operations = [] :=
  C5_round_trip_identity ["r"] [⟨["r", "a.txt"], false⟩] ["a.txt"]
    (by decide) (by decide)

/-! ### `_unique_temp_path` always finds a fresh name -/

/-- Value of a decimal digit string (left inverse of `natChars`). -/
def digitsVal (l : List Char) : Nat :=
  l.foldl (fun a c => 10 * a + (c.toNat - 48)) 0

lemma digitsVal_concat (l : List Char) (c : Char) :
    digitsVal (l ++ [c]) = 10 * digitsVal l + (c.toNat - 48) := by
  unfold digitsVal
  rw [List.foldl_append]
  rfl

lemma natCharsAux_spec : ∀ (fuel n : Nat), n < fuel →
    (∀ c ∈ natCharsAux fuel n, 48 ≤ c.toNat ∧ c.toNat ≤ 57) ∧
    digitsVal (natCharsAux fuel n) = n ∧ natCharsAux fuel n ≠ [] := by
  intro fuel
  induction fuel with
  | zero => intro n h; omega
  | succ fuel ih =>
    intro n _
    by_cases h10 : n < 10
    · simp only [natCharsAux, if_pos h10]
      have hto : (Char.ofNat (48 + n)).toNat = 48 + n := by
        interval_cases n <;> decide
      refine ⟨?_, ?_, by simp⟩
      · intro c hc
        simp at hc
        rw [hc, hto]
        omega
      · show 10 * 0 + ((Char.ofNat (48 + n)).toNat - 48) = n
        rw [hto]
        omega
    · simp only [natCharsAux, if_neg h10]
      have hdiv : n / 10 < fuel := by
        rcases Nat.eq_zero_or_pos fuel with hf | hf
        · omega
        · have h1 : n / 10 < n := Nat.div_lt_self (by omega) (by omega)
          omega
      obtain ⟨hd, hv, _⟩ := ih (n / 10) hdiv
      have hmod : n % 10 < 10 := Nat.mod_lt _ (by omega)
      have hto : (Char.ofNat (48 + n % 10)).toNat = 48 + n % 10 := by
        set m := n % 10 with hm
        interval_cases m <;> decide
      refine ⟨?_, ?_, by simp⟩
      · intro c hc
        rcases List.mem_append.mp hc with hc | hc
        · exact hd c hc
        · simp at hc
          rw [hc, hto]
          omega
      · rw [digitsVal_concat, hv, hto]
        omega

lemma natChars_digits (n : Nat) :
    ∀ c ∈ natChars n, 48 ≤ c.toNat ∧ c.toNat ≤ 57 :=
  (natCharsAux_spec (n + 1) n (by omega)).1

lemma natChars_inj {m n : Nat} (h : natChars m = natChars n) : m = n := by
  have hm := (natCharsAux_spec (m + 1) m (by omega)).2.1
  have hn := (natCharsAux_spec (n + 1) n (by omega)).2.1
  unfold natChars at h
  rw [h] at hm
  rw [hm] at hn
  omega

lemma natChars_ne_nil (n : Nat) : natChars n ≠ [] :=
  (natCharsAux_spec (n + 1) n (by omega)).2.2

lemma pyLowerChar_digit {c : Char} (h1 : 48 ≤ c.toNat) (h2 : c.toNat ≤ 57) :
    pyLowerChar c = c := by
  unfold pyLowerChar
  rw [if_neg]
  omega

lemma map_lower_natChars (n : Nat) :
    (natChars n).map pyLowerChar = natChars n := by
  rw [List.map_congr_left fun c hc =>
    pyLowerChar_digit (natChars_digits n c hc).1 (natChars_digits n c hc).2]
  exact List.map_id _

lemma joinComps_concat (l : List String) (x : String) :
    pathChars.joinComps (l ++ [x]) =
      (if l = [] then [] else pathChars.joinComps l ++ ['/']) ++ x.data := by
  induction l with
  | nil => simp [pathChars.joinComps]
  | cons c rest ih =>
    cases rest with
    | nil => simp [pathChars.joinComps]
    | cons d rest2 =>
      show pathChars.joinComps (c :: ((d :: rest2) ++ [x])) = _
      rw [show pathChars.joinComps (c :: ((d :: rest2) ++ [x])) =
        c.data ++ '/' :: pathChars.joinComps ((d :: rest2) ++ [x]) from rfl]
      rw [ih]
      simp [pathChars.joinComps]

lemma pathKey_concat_inj {P : PPath} {x y : String}
    (h : pathKey (P ++ [x]) = pathKey (P ++ [y])) :
    x.data.map pyLowerChar = y.data.map pyLowerChar := by
  unfold pathKey pathChars at h
  rw [joinComps_concat, joinComps_concat] at h
  simp only [List.map_cons, List.map_append] at h
  have h2 := List.cons_injective.eq_iff.mp h
  exact List.append_cancel_left h2

lemma strAppend_data (a b : String) : (a ++ b).data = a.data ++ b.data := rfl

lemma tempCandidate_key_inj (source : PPath) :
    ∀ {k k' : Nat},
      pathKey (tempCandidate source k) = pathKey (tempCandidate source k') →
      k = k' := by
  have hlen : ∀ (s : String) (m : Nat),
      ((s ++ ".clipstui_tmp_" ++ natStr m).data).length =
        s.data.length + 14 + (natChars m).length := by
    intro s m
    rw [strAppend_data, strAppend_data, List.length_append, List.length_append,
      show (".clipstui_tmp_" : String).data.length = 14 from by decide]
    rfl
  have hlen0 : ∀ s : String,
      ((s ++ ".clipstui_tmp").data).length = s.data.length + 13 := by
    intro s
    rw [strAppend_data, List.length_append,
      show (".clipstui_tmp" : String).data.length = 13 from by decide]
  intro k k' h
  match k, k' with
  | 0, 0 => rfl
  | 0, k' + 1 =>
    exfalso
    have h2 := pathKey_concat_inj h
    have h3 := congrArg List.length h2
    simp only [List.length_map] at h3
    rw [hlen0 (pathName source), hlen (pathName source) (k' + 1)] at h3
    have h5 : (natChars (k' + 1)).length ≠ 0 := fun hz =>
      natChars_ne_nil _ (List.eq_nil_of_length_eq_zero hz)
    omega
  | k + 1, 0 =>
    exfalso
    have h2 := pathKey_concat_inj h
    have h3 := congrArg List.length h2
    simp only [List.length_map] at h3
    rw [hlen0 (pathName source), hlen (pathName source) (k + 1)] at h3
    have h5 : (natChars (k + 1)).length ≠ 0 := fun hz =>
      natChars_ne_nil _ (List.eq_nil_of_length_eq_zero hz)
    omega
  | k + 1, k' + 1 =>
    have h2 := pathKey_concat_inj h
    rw [strAppend_data, strAppend_data, strAppend_data, strAppend_data] at h2
    simp only [List.map_append] at h2
    have h3 := List.append_cancel_left h2
    rw [show (natStr (k + 1)).data = natChars (k + 1) from rfl,
      show (natStr (k' + 1)).data = natChars (k' + 1) from rfl,
      map_lower_natChars, map_lower_natChars] at h3
    have := natChars_inj h3
    omega

lemma exists_fresh_candidate (fs : FS) (existing : List (List Char))
    (source : PPath) :
    ∃ j, j < existing.length + (allPaths fs).length + 1 ∧
      pathKey (tempCandidate source j) ∉ existing ∧
      tempCandidate source j ∉ allPaths fs := by
  by_contra hcon
  push_neg at hcon
  set N := existing.length + (allPaths fs).length + 1 with hN
  have hbad : ∀ j < N, pathKey (tempCandidate source j) ∈ existing ∨
      tempCandidate source j ∈ allPaths fs := by
    intro j hj
    by_cases hk : pathKey (tempCandidate source j) ∈ existing
    · exact Or.inl hk
    · exact Or.inr (hcon j hj hk)
  classical
  set f : Nat → (List Char) ⊕ PPath := fun j =>
    if pathKey (tempCandidate source j) ∈ existing then
      Sum.inl (pathKey (tempCandidate source j))
    else Sum.inr (tempCandidate source j) with hf
  set T : Finset ((List Char) ⊕ PPath) :=
    existing.toFinset.image Sum.inl ∪ (allPaths fs).toFinset.image Sum.inr
    with hT
  have hmaps : ∀ j ∈ Finset.range N, f j ∈ T := by
    intro j hj
    rw [Finset.mem_range] at hj
    rw [hf]
    by_cases hk : pathKey (tempCandidate source j) ∈ existing
    · simp only [if_pos hk, hT, Finset.mem_union, Finset.mem_image]
      exact Or.inl ⟨_, List.mem_toFinset.mpr hk, rfl⟩
    · rcases hbad j hj with h | h
      · exact absurd h hk
      · simp only [if_neg hk, hT, Finset.mem_union, Finset.mem_image]
        exact Or.inr ⟨_, List.mem_toFinset.mpr h, rfl⟩
  have hinj : Set.InjOn f (Finset.range N) := by
    intro j _ j' _ hjj
    rw [hf] at hjj
    by_cases h1 : pathKey (tempCandidate source j) ∈ existing <;>
      by_cases h2 : pathKey (tempCandidate source j') ∈ existing
    · simp only [if_pos h1, if_pos h2, Sum.inl.injEq] at hjj
      exact tempCandidate_key_inj source hjj
    · simp only [if_pos h1, if_neg h2] at hjj
      exact absurd hjj (by simp)
    · simp only [if_neg h1, if_pos h2] at hjj
      exact absurd hjj (by simp)
    · simp only [if_neg h1, if_neg h2, Sum.inr.injEq] at hjj
      exact tempCandidate_key_inj source (congrArg pathKey hjj)
  have hcard := Finset.card_le_card_of_injOn f hmaps hinj
  rw [Finset.card_range] at hcard
  have hc1 : T.card ≤ existing.length + (allPaths fs).length := by
    calc T.card ≤ (existing.toFinset.image Sum.inl).card +
        ((allPaths fs).toFinset.image Sum.inr).card := Finset.card_union_le _ _
      _ ≤ existing.toFinset.card + (allPaths fs).toFinset.card := by
          have := Finset.card_image_le (s := existing.toFinset)
            (f := (Sum.inl : List Char → (List Char) ⊕ PPath))
          have := Finset.card_image_le (s := (allPaths fs).toFinset)
            (f := (Sum.inr : PPath → (List Char) ⊕ PPath))
          omega
      _ ≤ existing.length + (allPaths fs).length := by
          have := existing.toFinset_card_le
          have := (allPaths fs).toFinset_card_le
          omega
  omega

lemma uniqueTempAux_finds (fs : FS) (existing : List (List Char))
    (source : PPath) :
    ∀ (fuel k₀ : Nat),
      (∃ j, j < fuel ∧ pathKey (tempCandidate source (k₀ + j)) ∉ existing ∧
        tempCandidate source (k₀ + j) ∉ allPaths fs) →
      ∃ k, uniqueTempAux fs existing source fuel k₀ = tempCandidate source k ∧
        pathKey (tempCandidate source k) ∉ existing ∧
        tempCandidate source k ∉ allPaths fs := by
  intro fuel
  induction fuel with
  | zero =>
    intro k₀ h
    obtain ⟨j, hj, _⟩ := h
    omega
  | succ fuel ih =>
    intro k₀ h
    by_cases hgood : pathKey (tempCandidate source k₀) ∈ existing ∨
        existsFS fs (tempCandidate source k₀) = true
    · have hstep : uniqueTempAux fs existing source (fuel + 1) k₀ =
          uniqueTempAux fs existing source fuel (k₀ + 1) := by
        simp only [uniqueTempAux, if_pos hgood]
      rw [hstep]
      refine ih (k₀ + 1) ?_
      obtain ⟨j, hj, hk, hm⟩ := h
      have hj0 : j ≠ 0 := by
        intro hz
        rw [hz, Nat.add_zero] at hk hm
        rcases hgood with hg | hg
        · exact hk hg
        · exact hm (by simpa [existsFS] using hg)
      exact ⟨j - 1, by omega, by
        rw [show k₀ + 1 + (j - 1) = k₀ + j from by omega]
        exact hk, by
        rw [show k₀ + 1 + (j - 1) = k₀ + j from by omega]
        exact hm⟩
    · push_neg at hgood
      have hstep : uniqueTempAux fs existing source (fuel + 1) k₀ =
          tempCandidate source k₀ := by
        simp only [uniqueTempAux]
        rw [if_neg (by
          push_neg
          exact ⟨hgood.1, hgood.2⟩)]
      exact ⟨k₀, hstep, hgood.1, by
        have := hgood.2
        simpa [existsFS] using this⟩

lemma uniqueTempPath_good (fs : FS) (existing : List (List Char))
    (source : PPath) :
    ∃ k, uniqueTempPath fs existing source = tempCandidate source k ∧
      pathKey (tempCandidate source k) ∉ existing ∧
      tempCandidate source k ∉ allPaths fs := by
  obtain ⟨j, hj, hk, hm⟩ := exists_fresh_candidate fs existing source
  refine uniqueTempAux_finds fs existing source
    (existing.length + (allPaths fs).length + 1) 0 ⟨j, hj, ?_, ?_⟩
  · rw [Nat.zero_add]
    exact hk
  · rw [Nat.zero_add]
    exact hm

/-- C10: `_unique_temp_path` terminates (modelled with fuel shown
sufficient by pigeonhole over the candidate names, whose case-folded keys
are pairwise distinct) and returns a path in the source's parent
directory whose case-folded key is not in the given key set and which
does not name an existing filesystem entry. -/
theorem C10_unique_temp_path (fs : FS) (existing : List (List Char))
    (source : PPath) :
    pathParent (uniqueTempPath fs existing source) = pathParent source ∧
    pathKey (uniqueTempPath fs existing source) ∉ existing ∧
    existsFS fs (uniqueTempPath fs existing source) = false := by
  obtain ⟨k, hk, hnk, hnm⟩ := uniqueTempPath_good fs existing source
  rw [hk]
  refine ⟨?_, hnk, by simpa [existsFS] using hnm⟩
  cases k with
  | zero => exact List.dropLast_concat
  | succ k => exact List.dropLast_concat

/-! ### Termination of the `_order_moves` cycle-breaking loop -/

lemma mem_insertKey {k x : List Char} {l : List (List Char)} :
    k ∈ insertKey x l ↔ k = x ∨ k ∈ l := by
  unfold insertKey
  by_cases hx : x ∈ l
  · simp only [if_pos hx]
    constructor
    · exact Or.inr
    · rintro (rfl | h)
      · exact hx
      · exact h
  · simp only [if_neg hx, List.mem_cons]

lemma insertKey_nodup {x : List Char} {l : List (List Char)}
    (h : l.Nodup) : (insertKey x l).Nodup := by
  unfold insertKey
  by_cases hx : x ∈ l
  · simpa [hx]
  · simpa [hx] using h

lemma keySet_spec (l : List (List Char)) :
    (keySet l).Nodup ∧ ∀ k, (k ∈ keySet l ↔ k ∈ l) := by
  suffices h : ∀ acc : List (List Char), acc.Nodup →
      (l.foldl (fun acc k => insertKey k acc) acc).Nodup ∧
      ∀ k, (k ∈ l.foldl (fun acc k => insertKey k acc) acc ↔ k ∈ acc ∨ k ∈ l) by
    obtain ⟨h1, h2⟩ := h [] (by simp)
    exact ⟨h1, fun k => by simpa using h2 k⟩
  induction l with
  | nil => intro acc ha; simpa using ha
  | cons x rest ih =>
    intro acc ha
    obtain ⟨h1, h2⟩ := ih (insertKey x acc) (insertKey_nodup ha)
    refine ⟨h1, fun k => ?_⟩
    rw [show (x :: rest).foldl (fun acc k => insertKey k acc) acc =
      rest.foldl (fun acc k => insertKey k acc) (insertKey x acc) from rfl]
    rw [h2 k, mem_insertKey]
    constructor
    · rintro ((rfl | h) | h)
      · exact Or.inr (by simp)
      · exact Or.inl h
      · exact Or.inr (by simp [h])
    · rintro (h | h)
      · exact Or.inl (Or.inr h)
      · rcases List.mem_cons.mp h with rfl | h
        · exact Or.inl (Or.inl rfl)
        · exact Or.inr h

lemma execPass_no_progress (sk : List (List Char)) :
    ∀ (l : List MoveItem), (execPass l sk).2.2.2 = false →
      (execPass l sk).1 = l ∧ (execPass l sk).2.1 = sk ∧
      (execPass l sk).2.2.1 = [] ∧ ∀ it ∈ l, pathKey it.target ∈ sk := by
  intro l
  induction l with
  | nil => intro _; exact ⟨rfl, rfl, rfl, by simp⟩
  | cons item rest ih =>
    intro hprog
    by_cases hmem : pathKey item.target ∈ sk
    · have hred : execPass (item :: rest) sk =
          (item :: (execPass rest sk).1, (execPass rest sk).2.1,
            (execPass rest sk).2.2.1, (execPass rest sk).2.2.2) := by
        simp [execPass, hmem]
      rw [hred] at hprog ⊢
      obtain ⟨h1, h2, h3, h4⟩ := ih hprog
      refine ⟨by rw [h1], h2, h3, ?_⟩
      intro it hit
      rcases List.mem_cons.mp hit with rfl | hit
      · exact hmem
      · exact h4 it hit
    · have hred : (execPass (item :: rest) sk).2.2.2 = true := by
        simp [execPass, hmem]
      rw [hred] at hprog
      exact absurd hprog (by simp)

lemma execPass_len (sk : List (List Char)) :
    ∀ (l : List MoveItem), (execPass l sk).1.length ≤ l.length := by
  intro l
  induction l generalizing sk with
  | nil => simp [execPass]
  | cons item rest ih =>
    by_cases hmem : pathKey item.target ∈ sk
    · simp only [execPass, if_pos hmem]
      have := ih sk
      simpa using this
    · simp only [execPass, if_neg hmem]
      have := ih (sk.erase (pathKey item.source))
      simp
      omega

lemma execPass_len_lt (sk : List (List Char)) :
    ∀ (l : List MoveItem), (execPass l sk).2.2.2 = true →
      (execPass l sk).1.length < l.length := by
  intro l
  induction l generalizing sk with
  | nil => intro h; simp [execPass] at h
  | cons item rest ih =>
    intro hprog
    by_cases hmem : pathKey item.target ∈ sk
    · simp only [execPass, if_pos hmem] at hprog ⊢
      have := ih sk (by simpa using hprog)
      simpa using this
    · simp only [execPass, if_neg hmem]
      have := execPass_len (sk.erase (pathKey item.source)) rest
      simp
      omega

lemma execPass_subset (sk : List (List Char)) :
    ∀ (l : List MoveItem), ∀ it ∈ (execPass l sk).1, it ∈ l := by
  intro l
  induction l generalizing sk with
  | nil => simp [execPass]
  | cons item rest ih =>
    intro it hit
    by_cases hmem : pathKey item.target ∈ sk
    · simp only [execPass, if_pos hmem] at hit
      rcases List.mem_cons.mp hit with rfl | hit
      · simp
      · exact List.mem_cons_of_mem _ (ih sk it hit)
    · simp only [execPass, if_neg hmem] at hit
      exact List.mem_cons_of_mem _ (ih _ it hit)

lemma execPass_sk_subset (sk : List (List Char)) :
    ∀ (l : List MoveItem), ∀ k ∈ (execPass l sk).2.1, k ∈ sk := by
  intro l
  induction l generalizing sk with
  | nil => simp [execPass]
  | cons item rest ih =>
    intro k hk
    by_cases hmem : pathKey item.target ∈ sk
    · simp only [execPass, if_pos hmem] at hk
      exact ih sk k hk
    · simp only [execPass, if_neg hmem] at hk
      exact (sk.erase_subset _) (ih _ k hk)

lemma execPass_sk_nodup :
    ∀ (l : List MoveItem) (sk : List (List Char)), sk.Nodup →
      (execPass l sk).2.1.Nodup := by
  intro l
  induction l with
  | nil => intro sk h; simpa [execPass]
  | cons item rest ih =>
    intro sk h
    by_cases hmem : pathKey item.target ∈ sk
    · simp only [execPass, if_pos hmem]
      exact ih sk h
    · simp only [execPass, if_neg hmem]
      exact ih _ (h.erase _)

lemma execPass_sk_witness :
    ∀ (l : List MoveItem) (sk : List (List Char)), sk.Nodup →
      ∀ k ∈ (execPass l sk).2.1, ∀ it ∈ l, pathKey it.source = k →
        it ∈ (execPass l sk).1 := by
  intro l
  induction l with
  | nil => simp
  | cons item rest ih =>
    intro sk hnd k hk it hit hkey
    by_cases hmem : pathKey item.target ∈ sk
    · simp only [execPass, if_pos hmem] at hk ⊢
      rcases List.mem_cons.mp hit with rfl | hit
      · simp
      · exact List.mem_cons_of_mem _ (ih sk hnd k hk it hit hkey)
    · simp only [execPass, if_neg hmem] at hk ⊢
      have hk' : k ∈ sk.erase (pathKey item.source) :=
        execPass_sk_subset _ rest k hk
      have hkne : k ≠ pathKey item.source :=
        ((List.Nodup.mem_erase_iff hnd).mp hk').1
      rcases List.mem_cons.mp hit with rfl | hit
      · exact absurd hkey hkne.symm
      · exact ih _ (hnd.erase _) k hk it hit hkey

/-- Whether a pending item's source key is an "original" key (one of the
source/target keys present when `_order_moves` started); synthetic items
requeued after a cycle break have fresh temp keys and are never original. -/
def isOrigItem (ek₀ : List (List Char)) (it : MoveItem) : Bool :=
  pathKey it.source ∈ ek₀

/-- Loop invariant of the `_order_moves` `while` loop. -/
structure OrderInv (ek₀ : List (List Char)) (n₀ : Nat) (s : OrderState) :
    Prop where
  skSub : ∀ k ∈ s.sk, ∃ it ∈ s.pending, pathKey it.source = k
  tgtMem : ∀ it ∈ s.pending, pathKey it.target ∈ ek₀
  ekMono : ∀ k ∈ ek₀, k ∈ s.ek
  lenLe : s.pending.length ≤ n₀
  skNodup : s.sk.Nodup

/-- Count of pending items with original source keys. -/
def numOrig (ek₀ : List (List Char)) (s : OrderState) : Nat :=
  s.pending.countP (isOrigItem ek₀)

/-- Distance from the queue front to the first original-source item. -/
def dTemp (ek₀ : List (List Char)) (s : OrderState) : Nat :=
  (s.pending.takeWhile fun it => ¬isOrigItem ek₀ it).length

/-- Combined termination measure of one `while` iteration. -/
def msrOf (ek₀ : List (List Char)) (n₀ : Nat) (s : OrderState) : Nat :=
  s.pending.length * (n₀ + 2) ^ 2 + numOrig ek₀ s * (n₀ + 2) + dTemp ek₀ s

lemma orderStep_eq_progress (fs : FS) (s : OrderState) (item : MoveItem)
    (rest : List MoveItem) (hp : s.pending = item :: rest)
    (hprog : (execPass (item :: rest) s.sk).2.2.2 = true) :
    orderStep fs s = ⟨(execPass (item :: rest) s.sk).1,
      (execPass (item :: rest) s.sk).2.1, s.ek,
      s.steps ++ (execPass (item :: rest) s.sk).2.2.1⟩ := by
  unfold orderStep
  rw [hp]
  simp only [hprog, if_true]

lemma orderStep_eq_break (fs : FS) (s : OrderState) (item : MoveItem)
    (rest : List MoveItem) (hp : s.pending = item :: rest)
    (hprog : (execPass (item :: rest) s.sk).2.2.2 = false) :
    orderStep fs s =
      ⟨rest ++ [⟨uniqueTempPath fs s.ek item.source, item.target, item.origin,
        item.is_dir⟩],
        insertKey (pathKey (uniqueTempPath fs s.ek item.source))
          (s.sk.erase (pathKey item.source)),
        insertKey (pathKey (uniqueTempPath fs s.ek item.source)) s.ek,
        s.steps ++ [⟨item.source, uniqueTempPath fs s.ek item.source,
          item.origin, item.is_dir⟩]⟩ := by
  unfold orderStep
  rw [hp]
  simp only [hprog, if_false, Bool.false_eq_true]

lemma temp_fresh (fs : FS) (ek : List (List Char)) (source : PPath) :
    pathKey (uniqueTempPath fs ek source) ∉ ek := by
  obtain ⟨k, hk, hnk, _⟩ := uniqueTempPath_good fs ek source
  rw [hk]
  exact hnk

lemma pass_progress_of_no_orig (ek₀ : List (List Char)) (n₀ : Nat)
    (s : OrderState) (inv : OrderInv ek₀ n₀ s) (item : MoveItem)
    (rest : List MoveItem) (hp : s.pending = item :: rest)
    (hall : ∀ it ∈ s.pending, isOrigItem ek₀ it = false) :
    (execPass (item :: rest) s.sk).2.2.2 = true := by
  by_contra hcon
  have hfalse : (execPass (item :: rest) s.sk).2.2.2 = false := by
    cases h : (execPass (item :: rest) s.sk).2.2.2
    · rfl
    · exact absurd h hcon
  obtain ⟨_, _, _, hall2⟩ := execPass_no_progress s.sk (item :: rest) hfalse
  have h1 : pathKey item.target ∈ s.sk := hall2 item (by simp)
  obtain ⟨it', hit', hkey⟩ := inv.skSub _ h1
  have h2 : pathKey item.target ∈ ek₀ := inv.tgtMem item (by rw [hp]; simp)
  have h3 : isOrigItem ek₀ it' = true := by
    unfold isOrigItem
    rw [hkey]
    simpa using h2
  rw [hall it' hit'] at h3
  exact absurd h3 (by simp)

lemma takeWhile_append_of_exists {p : MoveItem → Bool} :
    ∀ (l₁ l₂ : List MoveItem), (∃ x ∈ l₁, p x = false) →
      (l₁ ++ l₂).takeWhile p = l₁.takeWhile p := by
  intro l₁
  induction l₁ with
  | nil => intro l₂ h; simp at h
  | cons a t ih =>
    intro l₂ h
    by_cases ha : p a
    · rw [List.cons_append, List.takeWhile_cons_of_pos ha,
        List.takeWhile_cons_of_pos ha]
      obtain ⟨x, hx, hpx⟩ := h
      rcases List.mem_cons.mp hx with rfl | hx
      · rw [ha] at hpx
        exact absurd hpx (by simp)
      · rw [ih l₂ ⟨x, hx, hpx⟩]
    · rw [List.cons_append,
        List.takeWhile_cons_of_neg (by simpa using ha),
        List.takeWhile_cons_of_neg (by simpa using ha)]

lemma orderInv_progress (fs : FS) (ek₀ : List (List Char)) (n₀ : Nat)
    (s : OrderState) (inv : OrderInv ek₀ n₀ s) (item : MoveItem)
    (rest : List MoveItem) (hp : s.pending = item :: rest)
    (hprog : (execPass (item :: rest) s.sk).2.2.2 = true) :
    OrderInv ek₀ n₀ (orderStep fs s) := by
  rw [orderStep_eq_progress fs s item rest hp hprog]
  refine ⟨?_, ?_, inv.ekMono, ?_, ?_⟩
  · intro k hk
    have hksk : k ∈ s.sk := execPass_sk_subset s.sk (item :: rest) k hk
    obtain ⟨it, hit, hkey⟩ := inv.skSub k hksk
    rw [hp] at hit
    exact ⟨it, execPass_sk_witness (item :: rest) s.sk inv.skNodup k hk it hit
      hkey, hkey⟩
  · intro it hit
    have : it ∈ item :: rest := execPass_subset s.sk (item :: rest) it hit
    exact inv.tgtMem it (by rw [hp]; exact this)
  · have h1 := execPass_len s.sk (item :: rest)
    have h2 := inv.lenLe
    rw [hp] at h2
    show (execPass (item :: rest) s.sk).1.length ≤ n₀
    omega
  · exact execPass_sk_nodup (item :: rest) s.sk inv.skNodup

lemma orderInv_break (fs : FS) (ek₀ : List (List Char)) (n₀ : Nat)
    (s : OrderState) (inv : OrderInv ek₀ n₀ s) (item : MoveItem)
    (rest : List MoveItem) (hp : s.pending = item :: rest)
    (hprog : (execPass (item :: rest) s.sk).2.2.2 = false) :
    OrderInv ek₀ n₀ (orderStep fs s) := by
  rw [orderStep_eq_break fs s item rest hp hprog]
  refine ⟨?_, ?_, ?_, ?_, ?_⟩
  · intro k hk
    rcases mem_insertKey.mp hk with rfl | hk
    · exact ⟨⟨uniqueTempPath fs s.ek item.source, item.target, item.origin,
        item.is_dir⟩, by simp, rfl⟩
    · have hkk := ((List.Nodup.mem_erase_iff inv.skNodup).mp hk)
      obtain ⟨it, hit, hkey⟩ := inv.skSub k hkk.2
      rw [hp] at hit
      rcases List.mem_cons.mp hit with rfl | hit
      · exact absurd hkey.symm hkk.1
      · exact ⟨it, by simp [hit], hkey⟩
  · intro it hit
    rcases List.mem_append.mp hit with hit | hit
    · exact inv.tgtMem it (by rw [hp]; exact List.mem_cons_of_mem _ hit)
    · simp at hit
      rw [hit]
      exact inv.tgtMem item (by rw [hp]; simp)
  · intro k hk
    exact mem_insertKey.mpr (Or.inr (inv.ekMono k hk))
  · have h2 := inv.lenLe
    rw [hp] at h2
    simp only [List.length_append, List.length_cons, List.length_singleton]
    simp at h2 ⊢
    omega
  · exact insertKey_nodup (inv.skNodup.erase _)

lemma msr_arith_exec {l l' o' d' o d n : Nat} (hl : l' < l) (hln : l ≤ n)
    (ho : o' ≤ l') (hd : d' ≤ l') :
    l' * (n + 2) ^ 2 + o' * (n + 2) + d' <
      l * (n + 2) ^ 2 + o * (n + 2) + d := by
  nlinarith [sq_nonneg (n + 2), Nat.zero_le (o * (n + 2) + d)]

lemma msr_arith_orig {X o' d d' n : Nat} (hd' : d' ≤ n) :
    X + o' * (n + 2) + d' < X + (o' + 1) * (n + 2) + d := by
  nlinarith

lemma msr_decreases (fs : FS) (ek₀ : List (List Char)) (n₀ : Nat)
    (s : OrderState) (inv : OrderInv ek₀ n₀ s) (hne : s.pending ≠ []) :
    msrOf ek₀ n₀ (orderStep fs s) < msrOf ek₀ n₀ s := by
  obtain ⟨item, rest, hp⟩ : ∃ item rest, s.pending = item :: rest := by
    cases hpp : s.pending with
    | nil => exact absurd hpp hne
    | cons a t => exact ⟨a, t, rfl⟩
  cases hprog : (execPass (item :: rest) s.sk).2.2.2 with
  | true =>
    rw [orderStep_eq_progress fs s item rest hp hprog]
    unfold msrOf numOrig dTemp
    have hlt := execPass_len_lt s.sk (item :: rest) hprog
    have hlen := inv.lenLe
    rw [hp] at hlen ⊢
    exact msr_arith_exec hlt hlen (List.countP_le_length _)
      (List.Sublist.length_le (List.takeWhile_sublist _))
  | false =>
    have hbr := orderStep_eq_break fs s item rest hp hprog
    have hfresh : pathKey (uniqueTempPath fs s.ek item.source) ∉ ek₀ :=
      fun h => temp_fresh fs s.ek item.source (inv.ekMono _ h)
    have hsyn : isOrigItem ek₀
        ⟨uniqueTempPath fs s.ek item.source, item.target, item.origin,
          item.is_dir⟩ = false := by
      unfold isOrigItem
      simpa using hfresh
    have hlen2 : (orderStep fs s).pending.length = s.pending.length := by
      rw [hbr, hp]
      simp
    have hcount : numOrig ek₀ (orderStep fs s) =
        rest.countP (isOrigItem ek₀) := by
      rw [hbr]
      unfold numOrig
      simp [List.countP_append, List.countP_cons, hsyn]
    have hdle : dTemp ek₀ (orderStep fs s) ≤ n₀ := by
      unfold dTemp
      refine le_trans (List.Sublist.length_le (List.takeWhile_sublist _)) ?_
      have h1 := inv.lenLe
      rw [show (orderStep fs s).pending.length = s.pending.length from hlen2]
        at *
      have := List.Sublist.length_le
        (List.takeWhile_sublist (l := (orderStep fs s).pending)
          (fun it => ¬isOrigItem ek₀ it))
      omega
    cases horig : isOrigItem ek₀ item with
    | true =>
      have hcount2 : numOrig ek₀ s = rest.countP (isOrigItem ek₀) + 1 := by
        unfold numOrig
        rw [hp, List.countP_cons]
        simp [horig]
      unfold msrOf
      rw [hcount, hcount2, hlen2]
      exact msr_arith_orig hdle
    | false =>
      have hcount2 : numOrig ek₀ s = rest.countP (isOrigItem ek₀) := by
        unfold numOrig
        rw [hp, List.countP_cons]
        simp [horig]
      have hex : ∃ x ∈ rest, isOrigItem ek₀ x = true := by
        by_contra hcon
        push_neg at hcon
        have hall : ∀ it ∈ s.pending, isOrigItem ek₀ it = false := by
          intro it hit
          rw [hp] at hit
          rcases List.mem_cons.mp hit with rfl | hit
          · exact horig
          · cases h : isOrigItem ek₀ it
            · rfl
            · exact absurd h (hcon it hit)
        have := pass_progress_of_no_orig ek₀ n₀ s inv item rest hp hall
        rw [hprog] at this
        exact absurd this (by simp)
      have hd1 : dTemp ek₀ s =
          (rest.takeWhile fun it => ¬isOrigItem ek₀ it).length + 1 := by
        unfold dTemp
        rw [hp, List.takeWhile_cons_of_pos (by simp [horig])]
        simp
      have hd2 : dTemp ek₀ (orderStep fs s) =
          (rest.takeWhile fun it => ¬isOrigItem ek₀ it).length := by
        rw [hbr]
        unfold dTemp
        show ((rest ++ [_]).takeWhile fun it => ¬isOrigItem ek₀ it).length = _
        rw [takeWhile_append_of_exists rest _ ?_]
        obtain ⟨x, hx, hox⟩ := hex
        exact ⟨x, hx, by simp [hox]⟩
      unfold msrOf
      rw [hcount, hcount2, hlen2, hd1, hd2]
      exact Nat.add_lt_add_left (by omega) _

lemma orderInv_step (fs : FS) (ek₀ : List (List Char)) (n₀ : Nat)
    (s : OrderState) (inv : OrderInv ek₀ n₀ s) :
    OrderInv ek₀ n₀ (orderStep fs s) := by
  cases hpp : s.pending with
  | nil =>
    have : orderStep fs s = s := by
      unfold orderStep
      rw [hpp]
    rw [this]
    exact inv
  | cons item rest =>
    cases hprog : (execPass (item :: rest) s.sk).2.2.2 with
    | true => exact orderInv_progress fs ek₀ n₀ s inv item rest hpp hprog
    | false => exact orderInv_break fs ek₀ n₀ s inv item rest hpp hprog

lemma orderLoop_of_msr (fs : FS) (ek₀ : List (List Char)) (n₀ : Nat) :
    ∀ (M : Nat) (s : OrderState), OrderInv ek₀ n₀ s → msrOf ek₀ n₀ s ≤ M →
      (orderLoop fs (M + 1) s).pending = [] := by
  intro M
  induction M with
  | zero =>
    intro s inv hm
    cases hpp : s.pending with
    | nil =>
      show (if s.pending = [] then s else _).pending = []
      rw [if_pos hpp]
      exact hpp
    | cons a t =>
      exfalso
      have h1 : 1 ≤ s.pending.length := by rw [hpp]; simp
      have hX : 0 < (n₀ + 2) ^ 2 := by positivity
      have h2 : (n₀ + 2) ^ 2 ≤ s.pending.length * (n₀ + 2) ^ 2 :=
        Nat.le_mul_of_pos_left _ (by omega)
      have h3 : s.pending.length * (n₀ + 2) ^ 2 ≤ msrOf ek₀ n₀ s :=
        le_trans (Nat.le_add_right _ _) (Nat.le_add_right _ _)
      have h4 : (n₀ + 2) ^ 2 ≤ 0 := le_trans h2 (le_trans h3 hm)
      exact Nat.lt_irrefl 0 (lt_of_lt_of_le hX h4)
  | succ M ih =>
    intro s inv hm
    by_cases hpp : s.pending = []
    · show (if s.pending = [] then s else _).pending = []
      rw [if_pos hpp]
      exact hpp
    · show (if s.pending = [] then s
        else orderLoop fs (M + 1) (orderStep fs s)).pending = []
      rw [if_neg hpp]
      have hdec := msr_decreases fs ek₀ n₀ s inv hpp
      exact ih (orderStep fs s) (orderInv_step fs ek₀ n₀ s inv) (by omega)

lemma foldl_fst_len_le {α β γ : Type} (step : List α × γ → β → List α × γ)
    (hstep : ∀ acc p, (step acc p).1.length ≤ acc.1.length + 1) :
    ∀ (l : List β) (acc : List α × γ),
      (l.foldl step acc).1.length ≤ acc.1.length + l.length := by
  intro l
  induction l with
  | nil => intro acc; simp
  | cons p rest ih =>
    intro acc
    calc ((p :: rest).foldl step acc).1.length
        = (rest.foldl step (step acc p)).1.length := rfl
      _ ≤ (step acc p).1.length + rest.length := ih (step acc p)
      _ ≤ acc.1.length + 1 + rest.length := by
          have := hstep acc p
          omega
      _ = acc.1.length + (p :: rest).length := by
          simp
          omega

lemma intakeMoves_length (moves : List Operation) :
    (intakeMoves moves).1.length ≤ moves.length := by
  unfold intakeMoves
  refine le_trans (foldl_fst_len_le _ ?_ moves.enum ([], [])) ?_
  · intro acc p
    cases hs : p.2.source with
    | none => simp [hs]
    | some s =>
      cases ht : p.2.target with
      | none => simp [hs, ht]
      | some t => by_cases hk : pathKey s = pathKey t <;> simp [hs, ht, hk]
  · simp [List.enum_length]

lemma orderLoop_mono (fs : FS) :
    ∀ (f f' : Nat) (s : OrderState), f ≤ f' →
      (orderLoop fs f s).pending = [] → (orderLoop fs f' s).pending = [] := by
  intro f
  induction f with
  | zero =>
    intro f' s _ h0
    have hps : s.pending = [] := h0
    cases f' with
    | zero => exact hps
    | succ f' =>
      show (if s.pending = [] then s else _).pending = []
      rw [if_pos hps]
      exact hps
  | succ f ih =>
    intro f' s hle hdone
    cases f' with
    | zero => omega
    | succ f'' =>
      by_cases hps : s.pending = []
      · show (if s.pending = [] then s else _).pending = []
        rw [if_pos hps]
        exact hps
      · show (if s.pending = [] then s
          else orderLoop fs f'' (orderStep fs s)).pending = []
        rw [if_neg hps]
        have hdone2 : (orderLoop fs f (orderStep fs s)).pending = [] := by
          have : orderLoop fs (f + 1) s =
              orderLoop fs f (orderStep fs s) := by
            show (if s.pending = [] then s else _) = _
            rw [if_neg hps]
          rw [← this]
          exact hdone
        exact ih f'' (orderStep fs s) (by omega) hdone2

lemma initial_inv (moves : List Operation) :
    OrderInv (initialOrderState moves).ek moves.length
      (initialOrderState moves) := by
  have hsk := keySet_spec ((intakeMoves moves).1.map fun it => pathKey it.source)
  have hek := keySet_spec (((intakeMoves moves).1.map fun it => pathKey it.source)
    ++ (intakeMoves moves).1.map fun it => pathKey it.target)
  refine ⟨?_, ?_, fun k hk => hk, intakeMoves_length moves, hsk.1⟩
  · intro k hk
    have h1 : k ∈ (intakeMoves moves).1.map fun it => pathKey it.source :=
      (hsk.2 k).mp hk
    obtain ⟨it, hit, hkey⟩ := List.mem_map.mp h1
    exact ⟨it, hit, hkey⟩
  · intro it hit
    refine (hek.2 _).mpr ?_
    refine List.mem_append.mpr (Or.inr ?_)
    exact List.mem_map.mpr ⟨it, hit, rfl⟩

/-- C2: the move-ordering phase of the executor terminates for every
finite list of move operations and every filesystem: the `while pending`
loop of `_order_moves` (embedded as `orderLoop` with fuel
`(len(moves)+2)^3`, which this theorem shows is always sufficient)
always reaches an empty pending set.  Termination is proved by the
measure (|pending|, #original-source items, distance to the first
original-source item): an executing pass shrinks the queue, breaking a
cycle at an original-source item converts it to a fresh-temp item, and a
break at a temp-source item moves the queue closer to an original one,
which must exist because an all-temp queue always has an executable
move. -/
theorem C2_order_moves_terminates (fs : FS) (moves : List Operation) :
    (orderMovesState fs moves).pending = [] := by
  have inv := initial_inv moves
  set s₀ := initialOrderState moves with hs₀
  set n₀ := moves.length with hn₀
  have hL : s₀.pending.length ≤ n₀ := inv.lenLe
  have ho : numOrig s₀.ek s₀ ≤ n₀ :=
    le_trans (List.countP_le_length _) hL
  have hd : dTemp s₀.ek s₀ ≤ n₀ :=
    le_trans (List.Sublist.length_le (List.takeWhile_sublist _)) hL
  have hmsr : msrOf s₀.ek n₀ s₀ ≤
      n₀ * (n₀ + 2) ^ 2 + n₀ * (n₀ + 2) + n₀ := by
    unfold msrOf
    have h1 : s₀.pending.length * (n₀ + 2) ^ 2 ≤ n₀ * (n₀ + 2) ^ 2 :=
      Nat.mul_le_mul_right _ hL
    have h2 : numOrig s₀.ek s₀ * (n₀ + 2) ≤ n₀ * (n₀ + 2) :=
      Nat.mul_le_mul_right _ ho
    omega
  have hdone := orderLoop_of_msr fs s₀.ek n₀
    (n₀ * (n₀ + 2) ^ 2 + n₀ * (n₀ + 2) + n₀) s₀ inv hmsr
  have hfuel : n₀ * (n₀ + 2) ^ 2 + n₀ * (n₀ + 2) + n₀ + 1 ≤ (n₀ + 2) ^ 3 := by
    nlinarith
  exact orderLoop_mono fs _ _ s₀ hfuel hdone
